import Mathlib

/-!
Shallow embedding of the `satsolver` repository (a DPLL SAT solver with
watched literals) and proofs about it.

Conventions of the embedding:
* Rust `u32` variables are modelled as `Nat` (all arithmetic on them in the
  source is bounded increment / comparison, no overflow is reachable).
* `HashMap` values (`Assignment`, the watched-literals `access_map`) are
  modelled as association lists with first-match lookup; mutation keeps the
  position of an existing key and appends new keys, so iteration order is the
  insertion order.  The source iterates a `HashMap` (unspecified order) only
  in the initial-propagation loop of `is_satisfiable`; that order is exposed
  as an explicit parameter (`is_satisfiableCore`).
* Rust panics (`panic!`, `unreachable!`, failed `assert!`, out-of-bounds
  indexing, `expect`) are modelled as `Option.none` results.  `debug_assert!`
  is compiled out in release builds and is modelled as a no-op.
* The unbounded `loop`s of the source are modelled with explicit fuel; an
  exhausted fuel is a distinguished outcome, never confused with a result.
* The Rust `Vec` of decision levels pushes/pops at the end; the embedding
  uses a `List` whose HEAD is the TOP of the stack.
-/

namespace Satsolver

/-- Variables are positive integers in the source (`pub type Var = u32`). -/
abbrev Var := Nat

/-- A literal is a variable together with a polarity (`pub type LiteralTpl = (Var, bool)`). -/
abbrev LiteralTpl := Var × Bool

/-! ## Assignment (src/assignment.rs)

`Assignment(HashMap<Var, bool>)` modelled as an association list with unique
keys; lookup takes the first match, `change` overwrites in place or appends. -/

structure Assignment where
  entries : List (Var × Bool)
  deriving DecidableEq, Repr

namespace Assignment

def new : Assignment := ⟨[]⟩

/-- Gets the value assigned to this variable or `none` if it is unassigned. -/
def get (a : Assignment) (v : Var) : Option Bool :=
  (a.entries.find? (fun p => p.1 = v)).map (·.2)

/-- Gets whether this literal is valid (`some true`), invalid (`some false`)
or unassigned (`none`). -/
def get_lit (a : Assignment) (lit : LiteralTpl) : Option Bool :=
  (a.get lit.1).map (fun val => val == lit.2)

/-- Checks whether this assignment satisfies the given literal. -/
def satisfies (a : Assignment) (lit : LiteralTpl) : Bool :=
  ((a.get lit.1).map (fun val => val == lit.2)).getD false

/-- `HashMap::insert`: overwrite the entry for `var` or create it. -/
def change (a : Assignment) (v : Var) (val : Bool) : Assignment :=
  if a.entries.any (fun p => p.1 = v) then
    ⟨a.entries.map (fun p => if p.1 = v then (v, val) else p)⟩
  else
    ⟨a.entries ++ [(v, val)]⟩

def with' (a : Assignment) (v : Var) (val : Bool) : Assignment :=
  a.change v val

def new_with (v : Var) (val : Bool) : Assignment :=
  Assignment.new.change v val

end Assignment

/-! ## Clause and Cnf (src/cnf.rs) -/

/-- A clause stores its positive and negative variables separately. -/
structure Clause where
  positive : List Var
  negative : List Var
  deriving DecidableEq, Repr

namespace Clause

def new : Clause := ⟨[], []⟩

/-- Returns all literals of the clause: positives first, then negatives,
mirroring `literals()` which chains the two iterators. -/
def literals (c : Clause) : List LiteralTpl :=
  c.positive.map (fun v => (v, true)) ++ c.negative.map (fun v => (v, false))

/-- Adds a positive literal if not present; a contradictory literal is a
panic in the source, modelled as `none`. -/
def add_positive (c : Clause) (v : Var) : Option Clause :=
  if c.positive.contains v then some c
  else if c.negative.contains v then none
  else some ⟨c.positive ++ [v], c.negative⟩

/-- Adds a negative literal if not present; a contradictory literal is a
panic in the source, modelled as `none`. -/
def add_negative (c : Clause) (v : Var) : Option Clause :=
  if c.negative.contains v then some c
  else if c.positive.contains v then none
  else some ⟨c.positive, c.negative ++ [v]⟩

/-- A clause is satisfied iff some positive variable is assigned `true` or
some negative variable is assigned `false`. -/
def is_satisfied (c : Clause) (a : Assignment) : Bool :=
  c.positive.any (fun v => a.get v = some true)
    || c.negative.any (fun v => a.get v = some false)

def is_empty (c : Clause) : Bool :=
  c.positive.isEmpty && c.negative.isEmpty

end Clause

/-- A CNF formula is an ordered list of clauses. -/
structure Cnf where
  clauses : List Clause
  deriving DecidableEq, Repr

namespace Cnf

def new : Cnf := ⟨[]⟩

/-- The highest variable occurring in any clause (`0` for the empty formula). -/
def highest_var (c : Cnf) : Var :=
  c.clauses.foldl
    (fun cur clause =>
      max cur (max (clause.positive.foldl (fun cur v => max cur v) 0)
        (clause.negative.foldl (fun cur v => max cur v) 0)))
    0

/-- The formula is satisfied iff every clause is satisfied. -/
def is_satisfied (c : Cnf) (a : Assignment) : Bool :=
  c.clauses.all (fun cls => cls.is_satisfied a)

end Cnf

/-! ## Watched literals (src/watchedliterals.rs) -/

/-- Watched-literals state: for each clause index an optional watched pair,
plus an inverted index from literal to the clause indices watching it.
The `access_map` (`HashMap<LiteralTpl, Vec<usize>>`) is an association list
with first-match lookup. -/
structure WatchedLiterals where
  watched_literals : List (Option (LiteralTpl × LiteralTpl))
  access_map : List (LiteralTpl × List Nat)
  deriving DecidableEq, Repr

inductive UpdateResult where
  | unsatisfiable
  | satisfiable (propagations : List LiteralTpl)
  deriving DecidableEq, Repr

/-- Outcomes of `find_replacement_literal` (the six-way classification). -/
inductive FindOtherSuitableLiteral where
  | givenLiteralSatisfying
  | otherLiteralSatisfying (lit : LiteralTpl)
  | multipleUnassigned (lit : LiteralTpl)
  | unitClauseWithGiven
  | unitClause (lit : LiteralTpl)
  | unsatisfiableClause
  deriving DecidableEq, Repr

inductive CheckClauseAfterUpdateResult where
  | keepLiteral
  | swapTo (lit : LiteralTpl)
  | unsatisfiableClause
  deriving DecidableEq, Repr

/-- First-match lookup in an association list (`HashMap::get`). -/
def assocGet (m : List (LiteralTpl × List Nat)) (k : LiteralTpl) : Option (List Nat) :=
  (m.find? (fun p => p.1 = k)).map (·.2)

/-- Overwrite the first entry for `k`, or append a new entry
(write-back of `HashMap::get_mut` / `entry().or_default()`). -/
def assocSet (m : List (LiteralTpl × List Nat)) (k : LiteralTpl) (v : List Nat) :
    List (LiteralTpl × List Nat) :=
  match m with
  | [] => [(k, v)]
  | (k', v') :: rest => if k' = k then (k, v) :: rest else (k', v') :: assocSet rest k v

/-- The clause list currently stored for a literal (empty when absent);
this is the semantic reading of the access map used by the invariants. -/
def accessList (wl : WatchedLiterals) (k : LiteralTpl) : List Nat :=
  (assocGet wl.access_map k).getD []

/-- `Vec::swap_remove(pos)`: overwrite position `pos` with the last element
and drop the last element. -/
def swapRemove (l : List Nat) (pos : Nat) : List Nat :=
  (l.set pos (l.getLastD 0)).dropLast

namespace WatchedLiterals

/-- Adds the given pair of literals for the given clause to the watched list
and the access map, without any further updates. -/
def set_watch (wl : WatchedLiterals) (clause_idx : Nat) (lit0 lit1 : LiteralTpl) :
    WatchedLiterals :=
  let wl := { wl with watched_literals := wl.watched_literals.set clause_idx (some (lit0, lit1)) }
  let wl := { wl with access_map := assocSet wl.access_map lit0 (accessList wl lit0 ++ [clause_idx]) }
  { wl with access_map := assocSet wl.access_map lit1 (accessList wl lit1 ++ [clause_idx]) }

/-- Returns a new `WatchedLiterals` instance for the specified formula:
each clause with at least two literals watches its first two. -/
def new (cnf : Cnf) : WatchedLiterals :=
  let init : WatchedLiterals :=
    ⟨List.replicate cnf.clauses.length none, []⟩
  (cnf.clauses.enum.foldl
    (fun wl (p : Nat × Clause) =>
      match (p.2).literals with
      | lit0 :: lit1 :: _ => wl.set_watch p.1 lit0 lit1
      | _ => wl)
    init)

/-- Removes `old_wl` for `clause_idx` from the access map (unordered
`swap_remove`), rewrites the watched pair in place, and records `new_wl` in
the access map.  All `expect`/`unreachable!` paths of the source are `none`. -/
def replace_watched_literal (wl : WatchedLiterals) (clause_idx : Nat)
    (old_wl new_wl : LiteralTpl) : Option WatchedLiterals :=
  match assocGet wl.access_map old_wl with
  | none => none
  | some clause_indices =>
    match clause_indices.findIdx? (fun ci => ci = clause_idx) with
    | none => none
    | some position =>
      let wl := { wl with
        access_map := assocSet wl.access_map old_wl (swapRemove clause_indices position) }
      match wl.watched_literals[clause_idx]? with
      | none => none
      | some none => none
      | some (some wls) =>
        let newPair? : Option (LiteralTpl × LiteralTpl) :=
          if wls.1 = old_wl then some (new_wl, wls.2)
          else if wls.2 = old_wl then some (wls.1, new_wl)
          else none
        match newPair? with
        | none => none
        | some newPair =>
          let wl := { wl with
            watched_literals := wl.watched_literals.set clause_idx (some newPair) }
          some { wl with
            access_map := assocSet wl.access_map new_wl (accessList wl new_wl ++ [clause_idx]) }

/-- The literal-scanning loop of `find_replacement_literal`, carrying the
`unassigned_literal` accumulator.  The two `unreachable!()` arms are `none`;
note the second one is taken whenever two unassigned literals are found and
NEITHER is `second_wl`. -/
def findLoop (assignment : Assignment) (second_wl : LiteralTpl) :
    List LiteralTpl → Option LiteralTpl → Option FindOtherSuitableLiteral
  | [], none => some .unsatisfiableClause
  | [], some l =>
    if l = second_wl then some .unitClauseWithGiven else some (.unitClause l)
  | lit :: rest, acc =>
    match assignment.get_lit lit with
    | some true =>
      if lit = second_wl then none else some (.otherLiteralSatisfying lit)
    | some false => findLoop assignment second_wl rest acc
    | none =>
      match acc with
      | some stored_lit =>
        if stored_lit = second_wl then some (.multipleUnassigned lit)
        else if lit = second_wl then some (.multipleUnassigned stored_lit)
        else none
      | none => findLoop assignment second_wl rest (some lit)

/-- Finds a new literal suitable to be watched in a given clause,
acknowledging the second watched literal. -/
def find_replacement_literal (cls : Clause) (assignment : Assignment)
    (second_wl : LiteralTpl) : Option FindOtherSuitableLiteral :=
  if assignment.get_lit second_wl = some true then some .givenLiteralSatisfying
  else findLoop assignment second_wl cls.literals none

/-- Checks a clause containing a watched literal after it was assigned
false.  Returns the classification together with the propagations pushed
(at most one).  Panics are `none`. -/
def check_clause_after_update (wl : WatchedLiterals) (clause_idx : Nat)
    (clause : Clause) (assignment : Assignment) (new_assignment : LiteralTpl) :
    Option (CheckClauseAfterUpdateResult × List LiteralTpl) :=
  match wl.watched_literals[clause_idx]? with
  | none => none
  | some none => none
  | some (some (wl0, wl1)) =>
    let other? : Option LiteralTpl :=
      if wl0.1 = new_assignment.1 then some wl1
      else if wl1.1 = new_assignment.1 then some wl0
      else none
    match other? with
    | none => none
    | some other_wl =>
      match find_replacement_literal clause assignment other_wl with
      | none => none
      | some .givenLiteralSatisfying => some (.keepLiteral, [])
      | some (.otherLiteralSatisfying other_lit) => some (.swapTo other_lit, [])
      | some (.multipleUnassigned other_lit) => some (.swapTo other_lit, [])
      | some .unitClauseWithGiven => some (.keepLiteral, [other_wl])
      | some (.unitClause other_lit) => some (.swapTo other_lit, [other_lit])
      | some .unsatisfiableClause => some (.unsatisfiableClause, [])

/-- The clause loop of `update` over the snapshot of the access list taken
at entry, accumulating propagations and threading the mutated state. -/
def processClauses (cnf : Cnf) (assignment : Assignment)
    (watched_literal new_assignment : LiteralTpl) :
    List Nat → WatchedLiterals → List LiteralTpl → Option (WatchedLiterals × UpdateResult)
  | [], wl, propagations => some (wl, .satisfiable propagations)
  | clause_idx :: rest, wl, propagations =>
    match cnf.clauses[clause_idx]? with
    | none => none
    | some clause =>
      match wl.check_clause_after_update clause_idx clause assignment new_assignment with
      | none => none
      | some (.keepLiteral, emitted) =>
        processClauses cnf assignment watched_literal new_assignment rest wl
          (propagations ++ emitted)
      | some (.swapTo new_wl, emitted) =>
        match wl.replace_watched_literal clause_idx watched_literal new_wl with
        | none => none
        | some wl' =>
          processClauses cnf assignment watched_literal new_assignment rest wl'
            (propagations ++ emitted)
      | some (.unsatisfiableClause, _) => some (wl, .unsatisfiable)

/-- `WatchedLiterals::update`.  The entry assertion of the source is
`assert!(matches!(assignment.get(var), Some(val) if val == val))`: the guard
binds a fresh `val`, so it only checks that the variable is assigned at all,
not that it carries the asserted polarity. -/
def update (wl : WatchedLiterals) (cnf : Cnf) (assignment : Assignment)
    (new_assignment : LiteralTpl) : Option (WatchedLiterals × UpdateResult) :=
  let var := new_assignment.1
  let val := new_assignment.2
  if (assignment.get var).isSome then
    let watched_literal : LiteralTpl := (var, !val)
    match assocGet wl.access_map watched_literal with
    | some clauses_vec =>
      processClauses cnf assignment watched_literal new_assignment clauses_vec wl []
    | none => some (wl, .satisfiable [])
  else none

end WatchedLiterals

/-! ## Search driver (src/satsolve.rs)

The Rust `Vec<DecisionLevel>` pushes and pops at its end; here the HEAD of
the list is the TOP of the stack. -/

structure DecisionLevel where
  assignment : Assignment
  changed_var : Var
  next_var_at_least : Var
  flipped : Bool
  deriving DecidableEq, Repr

inductive BacktrackResult where
  | unsatisfiableFormula
  | continueWith (lit : LiteralTpl)
  deriving DecidableEq, Repr

/-- Backtracks the given decision levels until a new possible assignment is
found (flipping the topmost unflipped level in place) or every assignment
has been tried.  The `unwrap` on the decided variable's value is `none`. -/
def backtrack : List DecisionLevel → Option (List DecisionLevel × BacktrackResult)
  | [] => some ([], .unsatisfiableFormula)
  | dl :: rest =>
    if dl.flipped then backtrack rest
    else
      match dl.assignment.get dl.changed_var with
      | none => none
      | some old_assignment =>
        let new_assignment : LiteralTpl := (dl.changed_var, !old_assignment)
        some ({ dl with
                  flipped := true,
                  assignment := dl.assignment.change new_assignment.1 new_assignment.2 } :: rest,
              .continueWith new_assignment)

/-- Scans the clause list for single-literal clauses and collects their
forced values; `none` on two conflicting single-literal clauses. -/
def getAssignmentFromSingleClausesLoop : List Clause → Assignment → Option Assignment
  | [], a => some a
  | cls :: rest, a =>
    match cls.literals with
    | [lit] =>
      match a.get_lit lit with
      | some true => getAssignmentFromSingleClausesLoop rest a
      | some false => none
      | none => getAssignmentFromSingleClausesLoop rest (a.change lit.1 lit.2)
    | _ => getAssignmentFromSingleClausesLoop rest a

def get_assignment_from_single_clauses (cnf : Cnf) : Option Assignment :=
  getAssignmentFromSingleClausesLoop cnf.clauses Assignment.new

/-- The `while assigned` scan of `choose_next_var`; a fuel of one more than
the number of assigned variables always finds the first unassigned index. -/
def firstUnassignedFrom (a : Assignment) : Nat → Var → Var
  | 0, var => var
  | fuel + 1, var =>
    if (a.get var).isSome then firstUnassignedFrom a fuel (var + 1) else var

/-- Picks the next decision variable: the first unassigned index starting
from `1 + next_var_at_least` of the top level, `none` once it reaches `max`
(note the strict `var < max` of the source). -/
def choose_next_var (max : Var) (dec_levels : List DecisionLevel)
    (initial_assignment : Assignment) : Option Var :=
  let start := 1 + ((dec_levels.head?.map (·.next_var_at_least)).getD 0)
  let a := (dec_levels.head?.map (·.assignment)).getD initial_assignment
  let var := firstUnassignedFrom a (a.entries.length + 1) start
  if var < max then some var else none

/-- Outcome of a BCP run.  `steps` counts the propagations applied to the
assignment (each enqueued propagation is written immediately). -/
inductive PropOutcome where
  | unsat (wl : WatchedLiterals) (a : Assignment) (steps : Nat)
  | assignmentDone (wl : WatchedLiterals) (a : Assignment) (steps : Nat)
  | panicked
  | outOfFuel
  deriving DecidableEq, Repr

/-- Writes a batch of emitted propagations into the assignment, in order. -/
def applyProps (a : Assignment) (props : List LiteralTpl) : Assignment :=
  props.foldl (fun a p => a.change p.1 p.2) a

/-- The FIFO queue loop of `propagate_assignment`. -/
def propagateLoop (cnf : Cnf) :
    Nat → WatchedLiterals → Assignment → List LiteralTpl → Nat → PropOutcome
  | 0, _, _, _, _ => .outOfFuel
  | _ + 1, wl, a, [], steps => .assignmentDone wl a steps
  | fuel + 1, wl, a, prop :: rest, steps =>
    match wl.update cnf a prop with
    | none => .panicked
    | some (wl', .unsatisfiable) => .unsat wl' a steps
    | some (wl', .satisfiable props) =>
      propagateLoop cnf fuel wl' (applyProps a props) (rest ++ props) (steps + props.length)

/-- Propagates a decision (`new_literal`) in the given assignment using the
watched literals.  The entry `debug_assert!` of the source is compiled out
in release builds and is not modelled. -/
def propagate_assignment (fuel : Nat) (cnf : Cnf) (wl : WatchedLiterals)
    (assignment : Assignment) (new_literal : LiteralTpl) : PropOutcome :=
  propagateLoop cnf fuel wl assignment [new_literal] 0

/-- The states of the main solving loop. -/
inductive SolveState where
  | checkCurrentLevel
  | assignNewVar
  | newDecLevelWithAssignment (lit : LiteralTpl)
  | propagateAssignment (lit : LiteralTpl)
  | backtrack
  deriving DecidableEq, Repr

structure SearchState where
  dec_levels : List DecisionLevel
  wl : WatchedLiterals
  tries : Nat
  state : SolveState
  deriving DecidableEq, Repr

inductive StepResult where
  | next (s : SearchState)
  | finished (verdict : Bool) (tries : Nat)
  | panicked
  | outOfFuel
  deriving DecidableEq, Repr

/-- One iteration of the main `loop` of `is_satisfiable`. -/
def solverStep (cnf : Cnf) (max : Var) (initial_assignment : Assignment)
    (propFuel : Nat) (s : SearchState) : StepResult :=
  match s.state with
  | .checkCurrentLevel =>
    match s.dec_levels with
    | dl :: _ =>
      if cnf.is_satisfied dl.assignment then .finished true (s.tries + 1)
      else .next { s with tries := s.tries + 1, state := .assignNewVar }
    | [] => .next { s with state := .assignNewVar }
  | .assignNewVar =>
    match choose_next_var max s.dec_levels initial_assignment with
    | none => .next { s with state := .backtrack }
    | some v => .next { s with state := .newDecLevelWithAssignment (v, false) }
  | .backtrack =>
    match Satsolver.backtrack s.dec_levels with
    | none => .panicked
    | some (_, .unsatisfiableFormula) => .finished false s.tries
    | some (dls', .continueWith lit) =>
      .next { s with dec_levels := dls', state := .propagateAssignment lit }
  | .newDecLevelWithAssignment lit =>
    let parentA := (s.dec_levels.head?.map (·.assignment)).getD initial_assignment
    let new_assignment := parentA.with' lit.1 lit.2
    let nval := (s.dec_levels.head?.map (·.next_var_at_least)).getD 0
    let next_var_at_least := if lit.1 = nval + 1 then lit.1 else nval
    let new_dl : DecisionLevel :=
      ⟨new_assignment, lit.1, next_var_at_least, false⟩
    .next { s with dec_levels := new_dl :: s.dec_levels,
                   state := .propagateAssignment lit }
  | .propagateAssignment lit =>
    match s.dec_levels with
    | [] => .panicked
    | dl :: rest =>
      match propagate_assignment propFuel cnf s.wl dl.assignment lit with
      | .panicked => .panicked
      | .outOfFuel => .outOfFuel
      | .unsat wl' a' _ =>
        .next { dec_levels := { dl with assignment := a' } :: rest, wl := wl',
                tries := s.tries, state := .backtrack }
      | .assignmentDone wl' a' _ =>
        .next { dec_levels := { dl with assignment := a' } :: rest, wl := wl',
                tries := s.tries, state := .checkCurrentLevel }

/-- Final outcome of the solver (`(bool, Stats)` in the source). -/
inductive SolveOutcome where
  | result (verdict : Bool) (tries : Nat)
  | panicked
  | outOfFuel
  deriving DecidableEq, Repr

def runLoop (cnf : Cnf) (max : Var) (initial_assignment : Assignment)
    (propFuel : Nat) : Nat → SearchState → SolveOutcome
  | 0, _ => .outOfFuel
  | fuel + 1, s =>
    match solverStep cnf max initial_assignment propFuel s with
    | .next s' => runLoop cnf max initial_assignment propFuel fuel s'
    | .finished v t => .result v t
    | .panicked => .panicked
    | .outOfFuel => .outOfFuel

inductive InitPropResult where
  | conflict
  | ok (wl : WatchedLiterals) (a : Assignment)
  | panicked
  | outOfFuel
  deriving DecidableEq, Repr

/-- Propagates each collected single-clause assignment in turn (the
`for new_literal in assignments_vec` loop). -/
def initialPropagationLoop (cnf : Cnf) (propFuel : Nat) :
    List LiteralTpl → WatchedLiterals → Assignment → InitPropResult
  | [], wl, a => .ok wl a
  | lit :: rest, wl, a =>
    match propagate_assignment propFuel cnf wl a lit with
    | .unsat _ _ _ => .conflict
    | .assignmentDone wl' a' _ => initialPropagationLoop cnf propFuel rest wl' a'
    | .panicked => .panicked
    | .outOfFuel => .outOfFuel

/-- `is_satisfiable`, with the iteration order of the initial assignment's
entries (a `HashMap` in the source, so its order is unspecified) exposed as
the function `seedsOf`. -/
def is_satisfiableWithOrder (loopFuel propFuel : Nat)
    (seedsOf : Assignment → List LiteralTpl) (cnf : Cnf) : SolveOutcome :=
  if cnf.clauses.isEmpty then .result true 0
  else if cnf.clauses.any (·.is_empty) then .result false 0
  else
    let wl := WatchedLiterals.new cnf
    match get_assignment_from_single_clauses cnf with
    | none => .result false 0
    | some assignment0 =>
      match initialPropagationLoop cnf propFuel (seedsOf assignment0) wl assignment0 with
      | .conflict => .result false 0
      | .panicked => .panicked
      | .outOfFuel => .outOfFuel
      | .ok wl' initial_assignment =>
        let max := cnf.highest_var
        if cnf.is_satisfied initial_assignment then .result true 1
        else
          runLoop cnf max initial_assignment propFuel loopFuel
            { dec_levels := [], wl := wl', tries := 1, state := .checkCurrentLevel }

/-- `is_satisfiable` with the canonical (insertion-order) enumeration of the
initial assignment. -/
def is_satisfiable (loopFuel propFuel : Nat) (cnf : Cnf) : SolveOutcome :=
  is_satisfiableWithOrder loopFuel propFuel (fun a => a.entries) cnf

/-- Runs `n` iterations of the main loop, `none` if the loop exits first. -/
def stepN (cnf : Cnf) (max : Var) (initial_assignment : Assignment)
    (propFuel : Nat) : Nat → SearchState → Option SearchState
  | 0, s => some s
  | n + 1, s =>
    match solverStep cnf max initial_assignment propFuel s with
    | .next s' => stepN cnf max initial_assignment propFuel n s'
    | _ => none

/-! ## Invariants and measures -/

/-- Every variable occurrence of the formula, with multiplicity. -/
def Cnf.varList (cnf : Cnf) : List Var :=
  cnf.clauses.flatMap (fun c => c.positive ++ c.negative)

/-- The number of distinct variables of the formula. -/
def numVars (cnf : Cnf) : Nat := cnf.varList.dedup.length

/-- Every literal of the clause is assigned false (the conflict condition). -/
def clauseAllFalse (cls : Clause) (a : Assignment) : Bool :=
  cls.literals.all (fun l => a.get_lit l == some false)

/-- How often `lit` occurs in the watched pair stored at index `i` (0, 1 or 2). -/
def pairCountL (wats : List (Option (LiteralTpl × LiteralTpl))) (lit : LiteralTpl)
    (i : Nat) : Nat :=
  match wats[i]? with
  | some (some (w0, w1)) => (if w0 = lit then 1 else 0) + (if w1 = lit then 1 else 0)
  | _ => 0

/-- How often `lit` occurs in the watched pair of clause `i` (0, 1 or 2). -/
def pairCount (wl : WatchedLiterals) (lit : LiteralTpl) (i : Nat) : Nat :=
  pairCountL wl.watched_literals lit i

/-- Invariant I2: the access map and the watched pairs are mutually
consistent — a clause index occurs in the list stored for a literal exactly
as often as the literal occurs in that clause's watched pair. -/
def I2 (wl : WatchedLiterals) : Prop :=
  ∀ lit i, (accessList wl lit).count i = pairCount wl lit i

/-- All literals occurring in some watched pair. -/
def pairLits (wl : WatchedLiterals) : List LiteralTpl :=
  wl.watched_literals.flatMap (fun o =>
    match o with
    | some (w0, w1) => [w0, w1]
    | none => [])

/-- The keys of the access map. -/
def accessKeys (wl : WatchedLiterals) : List LiteralTpl :=
  wl.access_map.map (·.1)

/-- Decidable check of I2 at one literal. -/
def i2CheckAt (wl : WatchedLiterals) (lit : LiteralTpl) : Bool :=
  (accessList wl lit ++ List.range wl.watched_literals.length).all
    (fun i => (accessList wl lit).count i == pairCount wl lit i)

/-- Decidable check of invariant I2 (equivalent to `I2`, see
`i2Check_iff_I2`). -/
def i2Check (wl : WatchedLiterals) : Bool :=
  (accessKeys wl ++ pairLits wl).all (fun lit => i2CheckAt wl lit)

/-- Invariant I1: every watched literal belongs to its clause's literal set. -/
def I1 (wl : WatchedLiterals) (cnf : Cnf) : Prop :=
  ∀ (i : Nat) (w0 w1 : LiteralTpl), wl.watched_literals[i]? = some (some (w0, w1)) →
    ∃ cls : Clause, cnf.clauses[i]? = some cls ∧ w0 ∈ cls.literals ∧ w1 ∈ cls.literals

/-- Decidable check of invariant I1 (equivalent to `I1`, see
`i1Check_iff_I1`). -/
def i1Check (wl : WatchedLiterals) (cnf : Cnf) : Bool :=
  (List.range wl.watched_literals.length).all (fun i =>
    match wl.watched_literals[i]?, cnf.clauses[i]? with
    | some (some (w0, w1)), some cls =>
      cls.literals.contains w0 && cls.literals.contains w1
    | some (some _), none => false
    | _, _ => true)

/-- The variables that a run of `propagate_assignment` can ever assign:
variables of the formula together with variables of the current watched
pairs. -/
def propUniverse (cnf : Cnf) (wl : WatchedLiterals) : List Var :=
  (cnf.varList ++ (pairLits wl).map (·.1)).dedup

/-- Number of universe variables still unassigned. -/
def unassignedCount (vs : List Var) (a : Assignment) : Nat :=
  (vs.filter (fun v => (a.get v).isNone)).length

/-- A fuel that always suffices for `propagate_assignment` (each update that
emits propagations assigns at least one new variable, and a single update
emits at most `2 * clauses` propagations). -/
def propFuelBound (cnf : Cnf) (wl : WatchedLiterals) (a : Assignment) : Nat :=
  unassignedCount (propUniverse cnf wl) a * (2 * cnf.clauses.length + 2) + 2

/-! ## Concrete instances -/

/-- The formula (1 ∨ 2) ∧ (1 ∨ ¬2 ∨ 3) ∧ (1 ∨ ¬2 ∨ ¬3) ∧ (¬1 ∨ ¬2). -/
def cnfC1 : Cnf :=
  ⟨[⟨[1, 2], []⟩, ⟨[1, 3], [2]⟩, ⟨[1], [2, 3]⟩, ⟨[], [1, 2]⟩]⟩

/-- The partial assignment 1 ↦ true, 2 ↦ false. -/
def modelC1 : Assignment := ⟨[(1, true), (2, false)]⟩

/-- The clause (1 ∨ 2 ∨ 3). -/
def clauseC3 : Clause := ⟨[1, 2, 3], []⟩

/-- The formula 1 ∧ ¬2 ∧ (2 ∨ 3) ∧ (¬1 ∨ ¬3 ∨ ¬5 ∨ ¬6). -/
def cnfC4 : Cnf :=
  ⟨[⟨[1], []⟩, ⟨[], [2]⟩, ⟨[2, 3], []⟩, ⟨[], [1, 3, 5, 6]⟩]⟩

/-- One enumeration order of the initial assignment of `cnfC4`. -/
def orderC4A : List LiteralTpl := [(1, true), (2, false)]

/-- The other enumeration order of the initial assignment of `cnfC4`. -/
def orderC4B : List LiteralTpl := [(2, false), (1, true)]

/-- The formula (¬1 ∨ 2) ∧ (¬1 ∨ 2) ∧ (¬1 ∨ 2) (a duplicated clause). -/
def cnfC6 : Cnf := ⟨[⟨[2], [1]⟩, ⟨[2], [1]⟩, ⟨[2], [1]⟩]⟩

/-- The number of propagation steps a BCP run applied, if it completed. -/
def propStepsOf : PropOutcome → Option Nat
  | .assignmentDone _ _ steps => some steps
  | .unsat _ _ steps => some steps
  | _ => none

/-- The formula (1 ∨ 2 ∨ 3 ∨ 4) ∧ (1 ∨ 5). -/
def cnfC7 : Cnf := ⟨[⟨[1, 2, 3, 4], []⟩, ⟨[1, 5], []⟩]⟩

/-- The partial assignment 1 ↦ false, 2 ↦ false, 5 ↦ false. -/
def aC7 : Assignment := ⟨[(1, false), (2, false), (5, false)]⟩

/-- The formula (1 ∨ 2). -/
def cnfC9 : Cnf := ⟨[⟨[1, 2], []⟩]⟩

/-- The formula (1 ∨ 2), instance for a completed propagating update. -/
def cnfC5w : Cnf := ⟨[⟨[1, 2], []⟩]⟩

/-- The assignment 1 ↦ false. -/
def aC5w : Assignment := ⟨[(1, false)]⟩

/-- The formula (1 ∨ 2), instance for the emitted-propagation property. -/
def cnfC10w : Cnf := ⟨[⟨[1, 2], []⟩]⟩

/-- The assignment 1 ↦ false, seed of a unit propagation on variable 2. -/
def aC10w : Assignment := ⟨[(1, false)]⟩

/-- The formula (1 ∨ 2), instance for a conflicting update. -/
def cnfC7w : Cnf := ⟨[⟨[1, 2], []⟩]⟩

/-- The assignment 1 ↦ false, 2 ↦ false falsifying every literal of
`cnfC7w`. -/
def aC7w : Assignment := ⟨[(1, false), (2, false)]⟩

/-- The formula (1 ∨ 2), instance for a terminating BCP run. -/
def cnfC6w : Cnf := ⟨[⟨[1, 2], []⟩]⟩

/-- The assignment 1 ↦ false, seed of the BCP run on `cnfC6w`. -/
def aC6w : Assignment := ⟨[(1, false)]⟩

/-- A decision stack with a flipped top level above an unflipped level. -/
def dlsC8 : List DecisionLevel :=
  [⟨⟨[(1, true)]⟩, 1, 1, true⟩, ⟨⟨[(2, true)]⟩, 2, 2, false⟩,
    ⟨⟨[(3, false)]⟩, 3, 3, false⟩]

/-- The formula 1 ∧ (2 ∨ 3), whose single-clause pass seeds one entry. -/
def cnfC4w : Cnf := ⟨[⟨[1], []⟩, ⟨[2, 3], []⟩]⟩

/-- A seed order taking the first entry of the initial assignment. -/
def seedsA : Assignment → List LiteralTpl := fun a => a.entries.take 1

/-- The reversal of `seedsA` (the same at-most-one seed, permuted). -/
def seedsB : Assignment → List LiteralTpl := fun a => (a.entries.take 1).reverse

/-! ## Helper lemmas: association lists -/

theorem assocGet_assocSet (m : List (LiteralTpl × List Nat)) (k : LiteralTpl) (v : List Nat)
    (k' : LiteralTpl) :
    assocGet (assocSet m k v) k' = if k' = k then some v else assocGet m k' := by
  induction m with
  | nil =>
    by_cases h : k' = k
    · subst h
      simp [assocSet, assocGet, List.find?]
    · have hkk' : ¬(k = k') := fun hc => h hc.symm
      simp [assocSet, assocGet, List.find?, h, hkk']
  | cons p rest ih =>
    by_cases hpk : p.1 = k
    · by_cases h : k' = k
      · subst h
        simp [assocSet, assocGet, hpk, List.find?]
      · have hkk' : ¬(k = k') := Ne.symm h
        have hpk' : ¬(p.1 = k') := by rw [hpk]; exact hkk'
        simp [assocSet, assocGet, hpk, List.find?, h, hkk', hpk']
    · by_cases hpk' : p.1 = k'
      · have h : ¬(k' = k) := fun hc => hpk (hpk'.trans hc)
        simp [assocSet, assocGet, hpk, hpk', List.find?, h]
      · simp only [assocGet] at ih
        simp [assocSet, assocGet, hpk, hpk', List.find?, ih]

theorem assocGet_mem_keys (m : List (LiteralTpl × List Nat)) (k : LiteralTpl)
    (v : List Nat) (h : assocGet m k = some v) : k ∈ m.map (·.1) := by
  induction m with
  | nil => simp [assocGet] at h
  | cons p rest ih =>
    by_cases hp : p.1 = k
    · simp [hp]
    · have heq : List.find? (fun q => decide (q.1 = k)) (p :: rest)
          = List.find? (fun q => decide (q.1 = k)) rest :=
        List.find?_cons_of_neg _ (by simpa using hp)
      have h' : assocGet rest k = some v := by
        unfold assocGet at h ⊢
        rw [heq] at h
        exact h
      exact List.mem_cons.mpr (Or.inr (ih h'))

theorem accessList_eq_nil_of_not_mem_keys (wl : WatchedLiterals) (k : LiteralTpl)
    (h : k ∉ accessKeys wl) : accessList wl k = [] := by
  unfold accessList
  cases hg : assocGet wl.access_map k with
  | none => rfl
  | some v => exact absurd (assocGet_mem_keys _ _ _ hg) h

/-! ## Helper lemmas: swapRemove -/

theorem count_last_cons_dropLast (t : List Nat) (ht : t ≠ []) (d x : Nat) :
    (t.getLastD d :: t.dropLast).count x = t.count x := by
  conv_rhs => rw [← List.dropLast_append_getLast ht]
  rw [List.count_cons, List.count_append, List.count_singleton,
    List.getLastD_eq_getLast?, List.getLast?_eq_getLast t ht, Option.getD_some]

theorem count_swapRemove (l : List Nat) (pos : Nat) (y : Nat) (hy : l[pos]? = some y)
    (x : Nat) :
    (swapRemove l pos).count x + (if y = x then 1 else 0) = l.count x := by
  induction l generalizing pos with
  | nil => simp at hy
  | cons a t ih =>
    cases pos with
    | zero =>
      have ha : a = y := by simpa using hy
      rw [← ha]
      cases t with
      | nil =>
        simp only [swapRemove, List.getLastD_cons, List.getLastD_nil, List.set_cons_zero,
          List.dropLast_single, List.count_nil, List.count_singleton, Nat.zero_add]
        by_cases hax : a = x <;> simp [hax]
      | cons b t' =>
        have hswap : swapRemove (a :: b :: t') 0
            = (b :: t').getLastD a :: (b :: t').dropLast := by
          unfold swapRemove
          rw [List.set_cons_zero, List.getLastD_cons, List.dropLast_cons₂]
        rw [hswap, count_last_cons_dropLast (b :: t') (by simp) a x]
        conv_rhs => rw [List.count_cons]
        by_cases hax : a = x <;> simp [hax]
    | succ n =>
      simp only [List.getElem?_cons_succ] at hy
      have htne : t ≠ [] := by
        intro h
        rw [h] at hy
        simp at hy
      have hz : (a :: t).getLastD 0 = t.getLastD 0 := by
        rw [List.getLastD_cons, List.getLastD_eq_getLast?, List.getLastD_eq_getLast?,
          List.getLast?_eq_getLast t htne]
        simp
      have hsetne : t.set n (t.getLastD 0) ≠ [] := by
        cases t with
        | nil => exact absurd rfl htne
        | cons c u => cases n <;> simp
      have hstep : swapRemove (a :: t) (n + 1) = a :: swapRemove t n := by
        unfold swapRemove
        rw [hz]
        rw [show (a :: t).set (n + 1) (t.getLastD 0) = a :: t.set n (t.getLastD 0) from rfl]
        rw [List.dropLast_cons_of_ne_nil hsetne]
      rw [hstep]
      simp only [List.count_cons]
      have := ih n hy
      omega

/-! ## Helper lemmas: findIdx? -/

theorem findIdx?_some_getElem? {l : List Nat} {p : Nat → Bool} {pos : Nat}
    (h : l.findIdx? p = some pos) : ∃ y, l[pos]? = some y ∧ p y = true := by
  rw [List.findIdx?_eq_some_iff_getElem] at h
  obtain ⟨hlt, hp, -⟩ := h
  exact ⟨l[pos], by simp [List.getElem?_eq_getElem hlt], hp⟩

/-! ## Helper lemmas: assignments -/

theorem find?_map_replace_ne (l : List (Var × Bool)) (v w : Var) (b : Bool)
    (hwv : ¬w = v) :
    List.find? (fun p => decide (p.1 = w)) (l.map (fun p => if p.1 = v then (v, b) else p))
      = List.find? (fun p => decide (p.1 = w)) l := by
  induction l with
  | nil => rfl
  | cons p rest ih =>
    by_cases hpv : p.1 = v
    · have h1 : ¬((v, b).1 = w) := fun hc => hwv hc.symm
      have h2 : ¬(p.1 = w) := by rw [hpv]; exact fun hc => hwv hc.symm
      simp [List.find?, hpv, h1, h2, ih]
    · by_cases hpw : p.1 = w
      · simp [List.find?, hpv, hpw, hwv]
      · simp [List.find?, hpv, hpw, ih]

theorem find?_map_replace_self (l : List (Var × Bool)) (v : Var) (b : Bool)
    (hany : l.any (fun p => p.1 = v) = true) :
    List.find? (fun p => decide (p.1 = v)) (l.map (fun p => if p.1 = v then (v, b) else p))
      = some (v, b) := by
  induction l with
  | nil => simp at hany
  | cons p rest ih =>
    by_cases hpv : p.1 = v
    · simp [List.find?, hpv]
    · have hrest : rest.any (fun p => p.1 = v) = true := by
        simpa [List.any_cons, hpv] using hany
      simp [List.find?, hpv, ih hrest]

theorem Assignment.get_change (a : Assignment) (v : Var) (b : Bool) (w : Var) :
    (a.change v b).get w = if w = v then some b else a.get w := by
  by_cases hany : a.entries.any (fun p => p.1 = v)
  · have hchange : a.change v b
        = ⟨a.entries.map (fun p => if p.1 = v then (v, b) else p)⟩ := by
      unfold Assignment.change
      rw [if_pos hany]
    rw [hchange]
    show (List.find? (fun p => decide (p.1 = w))
        (a.entries.map (fun p => if p.1 = v then (v, b) else p))).map (fun p => p.2)
      = if w = v then some b else a.get w
    by_cases hwv : w = v
    · subst hwv
      rw [find?_map_replace_self a.entries w b hany]
      simp
    · rw [find?_map_replace_ne a.entries v w b hwv]
      simp only [hwv, if_neg, ite_false]
      rfl
  · have hchange : a.change v b = ⟨a.entries ++ [(v, b)]⟩ := by
      unfold Assignment.change
      rw [if_neg hany]
    rw [hchange]
    show (List.find? (fun p => decide (p.1 = w)) (a.entries ++ [(v, b)])).map (fun p => p.2)
      = if w = v then some b else a.get w
    rw [List.find?_append]
    by_cases hwv : w = v
    · subst hwv
      have hnone : a.entries.find? (fun p => decide (p.1 = w)) = none := by
        rw [List.find?_eq_none]
        intro x hx
        simp only [decide_eq_true_eq]
        intro hxw
        exact hany (List.any_eq_true.mpr ⟨x, hx, by simp [hxw]⟩)
      simp [hnone, List.find?]
    · have hvw : ¬(v = w) := fun hc => hwv hc.symm
      have happ : List.find? (fun p => decide (p.1 = w)) [(v, b)] = none := by
        simp [List.find?, hvw]
      rw [happ, Option.or_none]
      simp only [hwv, ite_false]
      rfl

theorem Assignment.isSome_get_change (a : Assignment) (v : Var) (b : Bool) (w : Var)
    (h : (a.get w).isSome) : ((a.change v b).get w).isSome := by
  rw [Assignment.get_change]
  by_cases hwv : w = v <;> simp [hwv, h]

theorem Assignment.get_change_self (a : Assignment) (v : Var) (b : Bool) :
    (a.change v b).get v = some b := by
  rw [Assignment.get_change]; simp

theorem Assignment.get_lit_eq_none_iff (a : Assignment) (l : LiteralTpl) :
    a.get_lit l = none ↔ a.get l.1 = none := by
  unfold Assignment.get_lit
  cases a.get l.1 <;> simp

theorem isSome_get_applyProps (a : Assignment) (props : List LiteralTpl) (w : Var)
    (h : (a.get w).isSome) : ((applyProps a props).get w).isSome := by
  induction props generalizing a with
  | nil => exact h
  | cons p rest ih =>
    exact ih _ (Assignment.isSome_get_change _ _ _ _ h)

theorem isSome_get_applyProps_of_mem (a : Assignment) (props : List LiteralTpl)
    (p : LiteralTpl) (hp : p ∈ props) : ((applyProps a props).get p.1).isSome := by
  induction props generalizing a with
  | nil => simp at hp
  | cons q rest ih =>
    rcases List.mem_cons.mp hp with h | h
    · subst h
      exact isSome_get_applyProps (a.change p.1 p.2) rest p.1
        (by simp [Assignment.get_change_self])
    · exact ih _ h

/-! ## Helper lemmas: the replacement search -/

theorem findLoop_nil_none (a : Assignment) (s : LiteralTpl) :
    WatchedLiterals.findLoop a s [] none = some .unsatisfiableClause := rfl

theorem findLoop_nil_some (a : Assignment) (s x : LiteralTpl) :
    WatchedLiterals.findLoop a s [] (some x)
      = if x = s then some .unitClauseWithGiven else some (.unitClause x) := rfl

theorem findLoop_cons (a : Assignment) (s lit : LiteralTpl) (rest : List LiteralTpl)
    (acc : Option LiteralTpl) :
    WatchedLiterals.findLoop a s (lit :: rest) acc =
      match a.get_lit lit with
      | some true => if lit = s then none else some (.otherLiteralSatisfying lit)
      | some false => WatchedLiterals.findLoop a s rest acc
      | none =>
        match acc with
        | some stored_lit =>
          if stored_lit = s then some (.multipleUnassigned lit)
          else if lit = s then some (.multipleUnassigned stored_lit)
          else none
        | none => WatchedLiterals.findLoop a s rest (some lit) := rfl

theorem findLoop_otherSat (a : Assignment) (s : LiteralTpl) :
    ∀ (l : List LiteralTpl) (acc : Option LiteralTpl) (p : LiteralTpl),
      WatchedLiterals.findLoop a s l acc = some (.otherLiteralSatisfying p) →
      p ∈ l ∧ a.get_lit p = some true ∧ p ≠ s
  | [], none, p => by simp [findLoop_nil_none, findLoop_nil_some]
  | [], some x, p => by
    by_cases hx : x = s <;> simp [findLoop_nil_some, hx]
  | lit :: rest, acc, p => by
    intro hres
    rw [findLoop_cons] at hres
    cases hga : a.get_lit lit with
    | some b =>
      cases b with
      | true =>
        rw [hga] at hres
        by_cases hls : lit = s
        · simp [hls] at hres
        · simp only [hls, ite_false, Option.some.injEq] at hres
          cases hres
          exact ⟨List.mem_cons_self _ _, hga, hls⟩
      | false =>
        rw [hga] at hres
        have := findLoop_otherSat a s rest acc p hres
        exact ⟨List.mem_cons_of_mem _ this.1, this.2⟩
    | none =>
      rw [hga] at hres
      cases acc with
      | some stored =>
        by_cases hst : stored = s
        · simp [hst] at hres
        · by_cases hlt : lit = s <;> simp [hst, hlt] at hres
      | none =>
        have := findLoop_otherSat a s rest (some lit) p hres
        exact ⟨List.mem_cons_of_mem _ this.1, this.2⟩

theorem findLoop_multiple (a : Assignment) (s : LiteralTpl) :
    ∀ (l : List LiteralTpl) (acc : Option LiteralTpl) (p : LiteralTpl),
      (∀ x, acc = some x → a.get_lit x = none) →
      WatchedLiterals.findLoop a s l acc = some (.multipleUnassigned p) →
      (p ∈ l ∨ acc = some p) ∧ a.get_lit p = none
  | [], none, p => by simp [findLoop_nil_none, findLoop_nil_some]
  | [], some x, p => by
    by_cases hx : x = s <;> simp [findLoop_nil_some, hx]
  | lit :: rest, acc, p => by
    intro hacc hres
    rw [findLoop_cons] at hres
    cases hga : a.get_lit lit with
    | some b =>
      cases b with
      | true =>
        rw [hga] at hres
        by_cases hls : lit = s <;> simp [hls] at hres
      | false =>
        rw [hga] at hres
        have := findLoop_multiple a s rest acc p hacc hres
        rcases this.1 with h | h
        · exact ⟨Or.inl (List.mem_cons_of_mem _ h), this.2⟩
        · exact ⟨Or.inr h, this.2⟩
    | none =>
      rw [hga] at hres
      cases acc with
      | some stored =>
        by_cases hst : stored = s
        · simp only [hst, ite_true, Option.some.injEq] at hres
          cases hres
          exact ⟨Or.inl (List.mem_cons_self _ _), hga⟩
        · by_cases hlt : lit = s
          · simp only [hst, ite_false, hlt, ite_true, Option.some.injEq] at hres
            cases hres
            exact ⟨Or.inr rfl, hacc p rfl⟩
          · simp [hst, hlt] at hres
      | none =>
        have := findLoop_multiple a s rest (some lit) p
          (by intro x hx; cases hx; exact hga) hres
        rcases this.1 with h | h
        · exact ⟨Or.inl (List.mem_cons_of_mem _ h), this.2⟩
        · cases h
          exact ⟨Or.inl (List.mem_cons_self _ _), this.2⟩

theorem findLoop_unitWithGiven (a : Assignment) (s : LiteralTpl) :
    ∀ (l : List LiteralTpl) (acc : Option LiteralTpl),
      (∀ x, acc = some x → a.get_lit x = none) →
      WatchedLiterals.findLoop a s l acc = some .unitClauseWithGiven →
      (s ∈ l ∨ acc = some s) ∧ a.get_lit s = none
  | [], none => by simp [findLoop_nil_none, findLoop_nil_some]
  | [], some x => by
    intro hacc hres
    by_cases hx : x = s
    · subst hx
      exact ⟨Or.inr rfl, hacc x rfl⟩
    · simp [findLoop_nil_some, hx] at hres
  | lit :: rest, acc => by
    intro hacc hres
    rw [findLoop_cons] at hres
    cases hga : a.get_lit lit with
    | some b =>
      cases b with
      | true =>
        rw [hga] at hres
        by_cases hls : lit = s <;> simp [hls] at hres
      | false =>
        rw [hga] at hres
        have := findLoop_unitWithGiven a s rest acc hacc hres
        rcases this.1 with h | h
        · exact ⟨Or.inl (List.mem_cons_of_mem _ h), this.2⟩
        · exact ⟨Or.inr h, this.2⟩
    | none =>
      rw [hga] at hres
      cases acc with
      | some stored =>
        by_cases hst : stored = s
        · simp [hst] at hres
        · by_cases hlt : lit = s <;> simp [hst, hlt] at hres
      | none =>
        have := findLoop_unitWithGiven a s rest (some lit)
          (by intro x hx; cases hx; exact hga) hres
        rcases this.1 with h | h
        · exact ⟨Or.inl (List.mem_cons_of_mem _ h), this.2⟩
        · cases h
          exact ⟨Or.inl (List.mem_cons_self _ _), this.2⟩

theorem findLoop_unitClause (a : Assignment) (s : LiteralTpl) :
    ∀ (l : List LiteralTpl) (acc : Option LiteralTpl) (p : LiteralTpl),
      (∀ x, acc = some x → a.get_lit x = none) →
      WatchedLiterals.findLoop a s l acc = some (.unitClause p) →
      (p ∈ l ∨ acc = some p) ∧ a.get_lit p = none ∧ p ≠ s
  | [], none, p => by simp [findLoop_nil_none, findLoop_nil_some]
  | [], some x, p => by
    intro hacc hres
    by_cases hx : x = s
    · simp [findLoop_nil_some, hx] at hres
    · simp only [findLoop_nil_some, hx, ite_false, Option.some.injEq] at hres
      have hxp : x = p := by simpa using hres
      subst hxp
      exact ⟨Or.inr rfl, hacc x rfl, hx⟩
  | lit :: rest, acc, p => by
    intro hacc hres
    rw [findLoop_cons] at hres
    cases hga : a.get_lit lit with
    | some b =>
      cases b with
      | true =>
        rw [hga] at hres
        by_cases hls : lit = s <;> simp [hls] at hres
      | false =>
        rw [hga] at hres
        have := findLoop_unitClause a s rest acc p hacc hres
        rcases this.1 with h | h
        · exact ⟨Or.inl (List.mem_cons_of_mem _ h), this.2⟩
        · exact ⟨Or.inr h, this.2⟩
    | none =>
      rw [hga] at hres
      cases acc with
      | some stored =>
        by_cases hst : stored = s
        · simp [hst] at hres
        · by_cases hlt : lit = s <;> simp [hst, hlt] at hres
      | none =>
        have := findLoop_unitClause a s rest (some lit) p
          (by intro x hx; cases hx; exact hga) hres
        rcases this.1 with h | h
        · exact ⟨Or.inl (List.mem_cons_of_mem _ h), this.2⟩
        · cases h
          exact ⟨Or.inl (List.mem_cons_self _ _), this.2⟩

theorem findLoop_unsat (a : Assignment) (s : LiteralTpl) :
    ∀ (l : List LiteralTpl) (acc : Option LiteralTpl),
      WatchedLiterals.findLoop a s l acc = some .unsatisfiableClause →
      (∀ x ∈ l, a.get_lit x = some false) ∧ acc = none
  | [], none => by simp [findLoop_nil_none, findLoop_nil_some]
  | [], some x => by
    by_cases hx : x = s <;> simp [findLoop_nil_some, hx]
  | lit :: rest, acc => by
    intro hres
    rw [findLoop_cons] at hres
    cases hga : a.get_lit lit with
    | some b =>
      cases b with
      | true =>
        rw [hga] at hres
        by_cases hls : lit = s <;> simp [hls] at hres
      | false =>
        rw [hga] at hres
        have := findLoop_unsat a s rest acc hres
        refine ⟨?_, this.2⟩
        intro x hx
        rcases List.mem_cons.mp hx with h | h
        · subst h; exact hga
        · exact this.1 x h
    | none =>
      rw [hga] at hres
      cases acc with
      | some stored =>
        by_cases hst : stored = s
        · simp [hst] at hres
        · by_cases hlt : lit = s <;> simp [hst, hlt] at hres
      | none =>
        have := findLoop_unsat a s rest (some lit) hres
        exact absurd this.2 (by simp)

theorem findLoop_complete_unsat (a : Assignment) (s : LiteralTpl) :
    ∀ (l : List LiteralTpl), (∀ x ∈ l, a.get_lit x = some false) →
      WatchedLiterals.findLoop a s l none = some .unsatisfiableClause
  | [] => by simp [findLoop_nil_none, findLoop_nil_some]
  | lit :: rest => by
    intro hall
    rw [findLoop_cons]
    rw [hall lit (List.mem_cons_self _ _)]
    exact findLoop_complete_unsat a s rest (fun x hx => hall x (List.mem_cons_of_mem _ hx))

/-- Characterization of the conflict outcome of the replacement search. -/
theorem find_replacement_literal_unsat_iff (cls : Clause) (a : Assignment)
    (second_wl : LiteralTpl) (hmem : second_wl ∈ cls.literals) :
    WatchedLiterals.find_replacement_literal cls a second_wl = some .unsatisfiableClause
      ↔ clauseAllFalse cls a = true := by
  constructor
  · intro h
    unfold WatchedLiterals.find_replacement_literal at h
    by_cases hs : a.get_lit second_wl = some true
    · simp [hs] at h
    · rw [if_neg hs] at h
      have := findLoop_unsat a second_wl cls.literals none h
      unfold clauseAllFalse
      rw [List.all_eq_true]
      intro x hx
      simp [this.1 x hx]
  · intro h
    unfold clauseAllFalse at h
    rw [List.all_eq_true] at h
    have hall : ∀ x ∈ cls.literals, a.get_lit x = some false := by
      intro x hx
      have := h x hx
      simpa using this
    have hs : ¬(a.get_lit second_wl = some true) := by
      rw [hall second_wl hmem]
      simp
    unfold WatchedLiterals.find_replacement_literal
    rw [if_neg hs]
    exact findLoop_complete_unsat a second_wl cls.literals hall

/-! ## Helper lemmas: watched-pair replacement preserves I2 -/

theorem if_eq_swap (a b : LiteralTpl) : (if a = b then (1 : Nat) else 0) = (if b = a then 1 else 0) := by
  by_cases h : a = b
  · simp [h]
  · simp [h, Ne.symm h]

theorem assoc_balance (m : List (LiteralTpl × List Nat)) (old_wl new_wl : LiteralTpl)
    (cis : List Nat) (pos i : Nat) (hg : assocGet m old_wl = some cis)
    (hcis : cis[pos]? = some i) (lit : LiteralTpl) (j : Nat) :
    ((assocGet (assocSet (assocSet m old_wl (swapRemove cis pos)) new_wl
        ((assocGet (assocSet m old_wl (swapRemove cis pos)) new_wl).getD [] ++ [i])) lit).getD
          []).count j
        + (if lit = old_wl ∧ j = i then 1 else 0)
      = ((assocGet m lit).getD []).count j + (if lit = new_wl ∧ j = i then 1 else 0) := by
  have hcount := count_swapRemove cis pos i hcis j
  rw [assocGet_assocSet]
  by_cases hn : lit = new_wl
  · rw [if_pos hn, Option.getD_some, List.count_append, List.count_singleton,
      assocGet_assocSet]
    by_cases ho : new_wl = old_wl
    · have hlit : lit = old_wl := hn.trans ho
      rw [if_pos ho, Option.getD_some, hlit, hg, Option.getD_some]
      by_cases hj : j = i
      · subst hj
        simp [ho] at hcount ⊢
        omega
      · simp [Ne.symm hj] at hcount
        simp [hj, Ne.symm hj]
        omega
    · have hlo : ¬(lit = old_wl) := fun hc => ho (hn.symm.trans hc)
      rw [if_neg ho, hn]
      by_cases hj : j = i
      · subst hj
        simp [ho]
      · simp [hj, Ne.symm hj]
  · rw [if_neg hn, assocGet_assocSet]
    by_cases ho : lit = old_wl
    · have hon : ¬(old_wl = new_wl) := fun hc => hn (ho.trans hc)
      rw [if_pos ho, Option.getD_some, ho, hg, Option.getD_some]
      by_cases hj : j = i
      · subst hj
        simp at hcount
        simp [hon]
        omega
      · simp [Ne.symm hj] at hcount
        simp [hon, hj]
        omega
    · rw [if_neg ho]
      simp [hn, ho]

theorem pair_balance (wats : List (Option (LiteralTpl × LiteralTpl))) (i : Nat)
    (w1 w2 old_wl new_wl : LiteralTpl) (hi : i < wats.length)
    (hw : wats[i]? = some (some (w1, w2)))
    (newPair : LiteralTpl × LiteralTpl)
    (hcase : (w1 = old_wl ∧ newPair = (new_wl, w2))
      ∨ (¬w1 = old_wl ∧ w2 = old_wl ∧ newPair = (w1, new_wl)))
    (lit : LiteralTpl) (j : Nat) :
    pairCountL (wats.set i (some newPair)) lit j + (if lit = old_wl ∧ j = i then 1 else 0)
      = pairCountL wats lit j + (if lit = new_wl ∧ j = i then 1 else 0) := by
  unfold pairCountL
  by_cases hj : j = i
  · subst hj
    rw [List.getElem?_set_self hi, hw]
    simp only [and_true]
    rw [if_eq_swap lit old_wl, if_eq_swap lit new_wl]
    rcases hcase with ⟨hc1, hc2⟩ | ⟨hc1, hc2, hc3⟩
    · subst hc2
      subst hc1
      simp only []
      omega
    · subst hc3
      subst hc2
      simp only []
      omega
  · rw [List.getElem?_set_ne (fun hc => hj hc.symm)]
    simp [hj]

theorem replace_preserves_I2 (wl : WatchedLiterals) (i : Nat) (old_wl new_wl : LiteralTpl)
    (wl' : WatchedLiterals) (hr : wl.replace_watched_literal i old_wl new_wl = some wl')
    (h2 : I2 wl) : I2 wl' := by
  unfold WatchedLiterals.replace_watched_literal at hr
  rcases hg : assocGet wl.access_map old_wl with _ | cis
  · simp only [hg] at hr
    exact Option.noConfusion hr
  rw [hg] at hr
  simp only [] at hr
  rcases hf : cis.findIdx? (fun ci => ci = i) with _ | pos
  · simp only [hf] at hr
    exact Option.noConfusion hr
  simp only [hf] at hr
  rcases hw : wl.watched_literals[i]? with _ | owls
  · simp only [hw] at hr
    exact Option.noConfusion hr
  rcases owls with _ | wls
  · simp only [hw] at hr
    exact Option.noConfusion hr
  simp only [hw] at hr
  have hi : i < wl.watched_literals.length := by
    by_contra hcon
    rw [List.getElem?_eq_none (Nat.le_of_not_lt hcon)] at hw
    exact Option.noConfusion hw
  have hcis : cis[pos]? = some i := by
    obtain ⟨y, hy, hyp⟩ := findIdx?_some_getElem? hf
    simp only [decide_eq_true_eq] at hyp
    rw [hy, hyp]
  rcases wls with ⟨w1, w2⟩
  by_cases hb1 : w1 = old_wl
  · simp only [hb1, ite_true] at hr
    rw [Option.some.injEq] at hr
    subst hr
    intro lit j
    have hA := assoc_balance wl.access_map old_wl new_wl cis pos i hg hcis lit j
    have hB := pair_balance wl.watched_literals i w1 w2 old_wl new_wl hi hw (new_wl, w2)
      (Or.inl ⟨hb1, rfl⟩) lit j
    have h2l := h2 lit j
    unfold accessList pairCount at h2l
    show ((assocGet (assocSet (assocSet wl.access_map old_wl (swapRemove cis pos)) new_wl
        ((assocGet (assocSet wl.access_map old_wl (swapRemove cis pos)) new_wl).getD []
          ++ [i])) lit).getD []).count j
      = pairCountL (wl.watched_literals.set i (some (new_wl, w2))) lit j
    omega
  · by_cases hb2 : w2 = old_wl
    · simp only [hb1, ite_false, hb2, ite_true] at hr
      rw [Option.some.injEq] at hr
      subst hr
      intro lit j
      have hA := assoc_balance wl.access_map old_wl new_wl cis pos i hg hcis lit j
      have hB := pair_balance wl.watched_literals i w1 w2 old_wl new_wl hi hw (w1, new_wl)
        (Or.inr ⟨hb1, hb2, rfl⟩) lit j
      have h2l := h2 lit j
      unfold accessList pairCount at h2l
      show ((assocGet (assocSet (assocSet wl.access_map old_wl (swapRemove cis pos)) new_wl
          ((assocGet (assocSet wl.access_map old_wl (swapRemove cis pos)) new_wl).getD []
            ++ [i])) lit).getD []).count j
        = pairCountL (wl.watched_literals.set i (some (w1, new_wl))) lit j
      omega
    · rw [if_neg hb1, if_neg hb2] at hr
      simp at hr

/-! ## Helper lemmas: clause checking -/

theorem find_replacement_unitWithGiven (cls : Clause) (a : Assignment) (s : LiteralTpl)
    (h : WatchedLiterals.find_replacement_literal cls a s = some .unitClauseWithGiven) :
    s ∈ cls.literals ∧ a.get_lit s = none := by
  unfold WatchedLiterals.find_replacement_literal at h
  by_cases hs : a.get_lit s = some true
  · simp [hs] at h
  · rw [if_neg hs] at h
    have := findLoop_unitWithGiven a s cls.literals none (by simp) h
    rcases this.1 with hm | hm
    · exact ⟨hm, this.2⟩
    · exact Option.noConfusion hm

theorem find_replacement_unitClause (cls : Clause) (a : Assignment) (s p : LiteralTpl)
    (h : WatchedLiterals.find_replacement_literal cls a s = some (.unitClause p)) :
    p ∈ cls.literals ∧ a.get_lit p = none ∧ p ≠ s := by
  unfold WatchedLiterals.find_replacement_literal at h
  by_cases hs : a.get_lit s = some true
  · simp [hs] at h
  · rw [if_neg hs] at h
    have := findLoop_unitClause a s cls.literals none p (by simp) h
    rcases this.1 with hm | hm
    · exact ⟨hm, this.2⟩
    · exact Option.noConfusion hm

theorem find_replacement_otherSat (cls : Clause) (a : Assignment) (s p : LiteralTpl)
    (h : WatchedLiterals.find_replacement_literal cls a s
      = some (.otherLiteralSatisfying p)) :
    p ∈ cls.literals ∧ a.get_lit p = some true ∧ p ≠ s := by
  unfold WatchedLiterals.find_replacement_literal at h
  by_cases hs : a.get_lit s = some true
  · simp [hs] at h
  · rw [if_neg hs] at h
    exact findLoop_otherSat a s cls.literals none p h

theorem find_replacement_multiple (cls : Clause) (a : Assignment) (s p : LiteralTpl)
    (h : WatchedLiterals.find_replacement_literal cls a s = some (.multipleUnassigned p)) :
    p ∈ cls.literals ∧ a.get_lit p = none := by
  unfold WatchedLiterals.find_replacement_literal at h
  by_cases hs : a.get_lit s = some true
  · simp [hs] at h
  · rw [if_neg hs] at h
    have := findLoop_multiple a s cls.literals none p (by simp) h
    rcases this.1 with hm | hm
    · exact ⟨hm, this.2⟩
    · exact Option.noConfusion hm

theorem find_replacement_unsat_allFalse (cls : Clause) (a : Assignment) (s : LiteralTpl)
    (h : WatchedLiterals.find_replacement_literal cls a s = some .unsatisfiableClause) :
    clauseAllFalse cls a = true := by
  unfold WatchedLiterals.find_replacement_literal at h
  by_cases hs : a.get_lit s = some true
  · simp [hs] at h
  · rw [if_neg hs] at h
    have := findLoop_unsat a s cls.literals none h
    unfold clauseAllFalse
    rw [List.all_eq_true]
    intro x hx
    simp [this.1 x hx]

/-- Full destructuring of a successful `check_clause_after_update` call. -/
theorem check_clause_destruct (wl : WatchedLiterals) (i : Nat) (cls : Clause)
    (a : Assignment) (nl : LiteralTpl) (res : CheckClauseAfterUpdateResult)
    (emitted : List LiteralTpl)
    (h : wl.check_clause_after_update i cls a nl = some (res, emitted)) :
    ∃ w1 w2 other_wl : LiteralTpl,
      wl.watched_literals[i]? = some (some (w1, w2)) ∧
      (other_wl = w1 ∨ other_wl = w2) ∧
      ((WatchedLiterals.find_replacement_literal cls a other_wl
          = some .givenLiteralSatisfying ∧ res = .keepLiteral ∧ emitted = []) ∨
       (∃ p, WatchedLiterals.find_replacement_literal cls a other_wl
          = some (.otherLiteralSatisfying p) ∧ res = .swapTo p ∧ emitted = []) ∨
       (∃ p, WatchedLiterals.find_replacement_literal cls a other_wl
          = some (.multipleUnassigned p) ∧ res = .swapTo p ∧ emitted = []) ∨
       (WatchedLiterals.find_replacement_literal cls a other_wl
          = some .unitClauseWithGiven ∧ res = .keepLiteral ∧ emitted = [other_wl]) ∨
       (∃ p, WatchedLiterals.find_replacement_literal cls a other_wl
          = some (.unitClause p) ∧ res = .swapTo p ∧ emitted = [p]) ∨
       (WatchedLiterals.find_replacement_literal cls a other_wl
          = some .unsatisfiableClause ∧ res = .unsatisfiableClause ∧ emitted = [])) := by
  unfold WatchedLiterals.check_clause_after_update at h
  rcases hwp : wl.watched_literals[i]? with _ | opair
  · simp only [hwp] at h
    exact Option.noConfusion h
  rcases opair with _ | wls
  · simp only [hwp] at h
    exact Option.noConfusion h
  rcases wls with ⟨w1, w2⟩
  simp only [hwp] at h
  refine ⟨w1, w2, ?_⟩
  by_cases h01 : w1.1 = nl.1
  · simp only [h01, ite_true] at h
    refine ⟨w2, rfl, Or.inr rfl, ?_⟩
    rcases hfr : WatchedLiterals.find_replacement_literal cls a w2 with _ | r
    · simp only [hfr] at h
      exact Option.noConfusion h
    rcases r with _ | p | p | _ | p | _ <;>
      simp only [hfr] at h <;>
      rw [Option.some.injEq, Prod.mk.injEq] at h
    · exact Or.inl ⟨rfl, h.1.symm, h.2.symm⟩
    · exact Or.inr (Or.inl ⟨p, rfl, h.1.symm, h.2.symm⟩)
    · exact Or.inr (Or.inr (Or.inl ⟨p, rfl, h.1.symm, h.2.symm⟩))
    · exact Or.inr (Or.inr (Or.inr (Or.inl ⟨rfl, h.1.symm, h.2.symm⟩)))
    · exact Or.inr (Or.inr (Or.inr (Or.inr (Or.inl ⟨p, rfl, h.1.symm, h.2.symm⟩))))
    · exact Or.inr (Or.inr (Or.inr (Or.inr (Or.inr ⟨rfl, h.1.symm, h.2.symm⟩))))
  · by_cases h11 : w2.1 = nl.1
    · simp only [h01, ite_false, h11, ite_true] at h
      refine ⟨w1, rfl, Or.inl rfl, ?_⟩
      rcases hfr : WatchedLiterals.find_replacement_literal cls a w1 with _ | r
      · simp only [hfr] at h
        exact Option.noConfusion h
      rcases r with _ | p | p | _ | p | _ <;>
        simp only [hfr] at h <;>
        rw [Option.some.injEq, Prod.mk.injEq] at h
      · exact Or.inl ⟨rfl, h.1.symm, h.2.symm⟩
      · exact Or.inr (Or.inl ⟨p, rfl, h.1.symm, h.2.symm⟩)
      · exact Or.inr (Or.inr (Or.inl ⟨p, rfl, h.1.symm, h.2.symm⟩))
      · exact Or.inr (Or.inr (Or.inr (Or.inl ⟨rfl, h.1.symm, h.2.symm⟩)))
      · exact Or.inr (Or.inr (Or.inr (Or.inr (Or.inl ⟨p, rfl, h.1.symm, h.2.symm⟩))))
      · exact Or.inr (Or.inr (Or.inr (Or.inr (Or.inr ⟨rfl, h.1.symm, h.2.symm⟩))))
    · simp only [h01, ite_false, h11] at h
      exact Option.noConfusion h

/-- Every propagation pushed by `check_clause_after_update` is an unassigned
literal of the clause. -/
theorem check_clause_emitted (wl : WatchedLiterals) (i : Nat) (cls : Clause)
    (a : Assignment) (nl : LiteralTpl) (res : CheckClauseAfterUpdateResult)
    (emitted : List LiteralTpl)
    (h : wl.check_clause_after_update i cls a nl = some (res, emitted)) :
    ∀ p ∈ emitted, p ∈ cls.literals ∧ a.get_lit p = none := by
  obtain ⟨w1, w2, other_wl, hwp, hother, hcases⟩ := check_clause_destruct wl i cls a nl res emitted h
  rcases hcases with ⟨_, _, he⟩ | ⟨p, _, _, he⟩ | ⟨p, _, _, he⟩ | ⟨hfr, _, he⟩
    | ⟨p, hfr, _, he⟩ | ⟨_, _, he⟩ <;> subst he <;> intro q hq
  · simp at hq
  · simp at hq
  · simp at hq
  · rw [List.mem_singleton] at hq
    subst hq
    exact find_replacement_unitWithGiven cls a q hfr
  · rw [List.mem_singleton] at hq
    subst hq
    have := find_replacement_unitClause cls a other_wl q hfr
    exact ⟨this.1, this.2.1⟩
  · simp at hq

/-- A swap target chosen by `check_clause_after_update` is a literal of the
clause. -/
theorem check_clause_swapTo_mem (wl : WatchedLiterals) (i : Nat) (cls : Clause)
    (a : Assignment) (nl nw : LiteralTpl) (emitted : List LiteralTpl)
    (h : wl.check_clause_after_update i cls a nl = some (.swapTo nw, emitted)) :
    nw ∈ cls.literals := by
  obtain ⟨w1, w2, other_wl, hwp, hother, hcases⟩ :=
    check_clause_destruct wl i cls a nl (.swapTo nw) emitted h
  rcases hcases with ⟨_, hres, _⟩ | ⟨p, hfr, hres, _⟩ | ⟨p, hfr, hres, _⟩ | ⟨_, hres, _⟩
    | ⟨p, hfr, hres, _⟩ | ⟨_, hres, _⟩
  · exact absurd hres (by simp)
  · rw [CheckClauseAfterUpdateResult.swapTo.injEq] at hres
    subst hres
    exact (find_replacement_otherSat cls a other_wl nw hfr).1
  · rw [CheckClauseAfterUpdateResult.swapTo.injEq] at hres
    subst hres
    exact (find_replacement_multiple cls a other_wl nw hfr).1
  · exact absurd hres (by simp)
  · rw [CheckClauseAfterUpdateResult.swapTo.injEq] at hres
    subst hres
    exact (find_replacement_unitClause cls a other_wl nw hfr).1
  · exact absurd hres (by simp)

/-- A clause reported unsatisfiable by `check_clause_after_update` has every
literal assigned false. -/
theorem check_clause_unsat_allFalse (wl : WatchedLiterals) (i : Nat) (cls : Clause)
    (a : Assignment) (nl : LiteralTpl) (emitted : List LiteralTpl)
    (h : wl.check_clause_after_update i cls a nl = some (.unsatisfiableClause, emitted)) :
    clauseAllFalse cls a = true := by
  obtain ⟨w1, w2, other_wl, hwp, hother, hcases⟩ :=
    check_clause_destruct wl i cls a nl .unsatisfiableClause emitted h
  rcases hcases with ⟨_, hres, _⟩ | ⟨p, hfr, hres, _⟩ | ⟨p, hfr, hres, _⟩ | ⟨_, hres, _⟩
    | ⟨p, hfr, hres, _⟩ | ⟨hfr, hres, _⟩
  · exact absurd hres (by simp)
  · exact absurd hres (by simp)
  · exact absurd hres (by simp)
  · exact absurd hres (by simp)
  · exact absurd hres (by simp)
  · exact find_replacement_unsat_allFalse cls a other_wl hfr

/-- An all-false clause whose watched pair lies inside the clause is always
classified as unsatisfiable. -/
theorem check_clause_allFalse_unsat (wl : WatchedLiterals) (i : Nat) (cls : Clause)
    (a : Assignment) (nl : LiteralTpl) (res : CheckClauseAfterUpdateResult)
    (emitted : List LiteralTpl) (hall : clauseAllFalse cls a = true)
    (hmem : ∀ w1 w2 : LiteralTpl, wl.watched_literals[i]? = some (some (w1, w2)) →
      w1 ∈ cls.literals ∧ w2 ∈ cls.literals)
    (h : wl.check_clause_after_update i cls a nl = some (res, emitted)) :
    res = .unsatisfiableClause := by
  obtain ⟨w1, w2, other_wl, hwp, hother, hcases⟩ :=
    check_clause_destruct wl i cls a nl res emitted h
  have hothermem : other_wl ∈ cls.literals := by
    rcases hother with hrfl | hrfl
    · exact hrfl ▸ (hmem w1 w2 hwp).1
    · exact hrfl ▸ (hmem w1 w2 hwp).2
  have hunsat : WatchedLiterals.find_replacement_literal cls a other_wl
      = some .unsatisfiableClause :=
    (find_replacement_literal_unsat_iff cls a other_wl hothermem).mpr hall
  rcases hcases with ⟨hfr, hres, _⟩ | ⟨p, hfr, hres, _⟩ | ⟨p, hfr, hres, _⟩ | ⟨hfr, hres, _⟩
    | ⟨p, hfr, hres, _⟩ | ⟨hfr, hres, _⟩
  · rw [hunsat] at hfr
    exact absurd hfr.symm (by simp)
  · rw [hunsat] at hfr
    exact absurd hfr.symm (by simp)
  · rw [hunsat] at hfr
    exact absurd hfr.symm (by simp)
  · rw [hunsat] at hfr
    exact absurd hfr.symm (by simp)
  · rw [hunsat] at hfr
    exact absurd hfr.symm (by simp)
  · exact hres

/-! ## Helper lemmas: shape of a successful replacement -/

theorem replace_destruct (wl : WatchedLiterals) (i : Nat) (old_wl new_wl : LiteralTpl)
    (wl' : WatchedLiterals) (hr : wl.replace_watched_literal i old_wl new_wl = some wl') :
    ∃ (w1 w2 : LiteralTpl),
      wl.watched_literals[i]? = some (some (w1, w2)) ∧
      ((w1 = old_wl ∧ wl'.watched_literals = wl.watched_literals.set i (some (new_wl, w2))) ∨
       (¬w1 = old_wl ∧ w2 = old_wl ∧
         wl'.watched_literals = wl.watched_literals.set i (some (w1, new_wl)))) := by
  unfold WatchedLiterals.replace_watched_literal at hr
  rcases hg : assocGet wl.access_map old_wl with _ | cis
  · simp only [hg] at hr
    exact Option.noConfusion hr
  rw [hg] at hr
  simp only [] at hr
  rcases hf : cis.findIdx? (fun ci => ci = i) with _ | pos
  · simp only [hf] at hr
    exact Option.noConfusion hr
  simp only [hf] at hr
  rcases hw : wl.watched_literals[i]? with _ | owls
  · simp only [hw] at hr
    exact Option.noConfusion hr
  rcases owls with _ | wls
  · simp only [hw] at hr
    exact Option.noConfusion hr
  simp only [hw] at hr
  rcases wls with ⟨w1, w2⟩
  refine ⟨w1, w2, rfl, ?_⟩
  by_cases hb1 : w1 = old_wl
  · simp only [hb1, ite_true] at hr
    rw [Option.some.injEq] at hr
    subst hr
    exact Or.inl ⟨hb1, rfl⟩
  · by_cases hb2 : w2 = old_wl
    · simp only [hb1, ite_false, hb2, ite_true] at hr
      rw [Option.some.injEq] at hr
      subst hr
      exact Or.inr ⟨hb1, hb2, rfl⟩
    · rw [if_neg hb1, if_neg hb2] at hr
      simp at hr

theorem replace_length (wl : WatchedLiterals) (i : Nat) (old_wl new_wl : LiteralTpl)
    (wl' : WatchedLiterals) (hr : wl.replace_watched_literal i old_wl new_wl = some wl') :
    wl'.watched_literals.length = wl.watched_literals.length := by
  obtain ⟨w1, w2, hw, hcase⟩ := replace_destruct wl i old_wl new_wl wl' hr
  rcases hcase with ⟨-, hl⟩ | ⟨-, -, hl⟩ <;> rw [hl] <;> exact List.length_set ..

theorem replace_pairLits (wl : WatchedLiterals) (i : Nat) (old_wl new_wl : LiteralTpl)
    (wl' : WatchedLiterals) (hr : wl.replace_watched_literal i old_wl new_wl = some wl')
    (q : LiteralTpl) (hq : q ∈ pairLits wl') : q = new_wl ∨ q ∈ pairLits wl := by
  obtain ⟨w1, w2, hw, hcase⟩ := replace_destruct wl i old_wl new_wl wl' hr
  have hmemw : some (w1, w2) ∈ wl.watched_literals := List.getElem?_mem hw
  have hp1 : w1 ∈ pairLits wl := List.mem_flatMap.mpr ⟨some (w1, w2), hmemw, by simp⟩
  have hp2 : w2 ∈ pairLits wl := List.mem_flatMap.mpr ⟨some (w1, w2), hmemw, by simp⟩
  unfold pairLits at hq
  rcases hcase with ⟨-, hl⟩ | ⟨-, -, hl⟩
  · rw [hl] at hq
    obtain ⟨o, ho, hqo⟩ := List.mem_flatMap.mp hq
    rcases List.mem_or_eq_of_mem_set ho with ho' | ho'
    · exact Or.inr (List.mem_flatMap.mpr ⟨o, ho', hqo⟩)
    · subst ho'
      simp only [List.mem_cons, List.mem_singleton, List.not_mem_nil, or_false] at hqo
      rcases hqo with h | h
      · exact Or.inl h
      · subst h
        exact Or.inr hp2
  · rw [hl] at hq
    obtain ⟨o, ho, hqo⟩ := List.mem_flatMap.mp hq
    rcases List.mem_or_eq_of_mem_set ho with ho' | ho'
    · exact Or.inr (List.mem_flatMap.mpr ⟨o, ho', hqo⟩)
    · subst ho'
      simp only [List.mem_cons, List.mem_singleton, List.not_mem_nil, or_false] at hqo
      rcases hqo with h | h
      · subst h
        exact Or.inr hp1
      · exact Or.inl h

theorem replace_preserves_I1 (wl : WatchedLiterals) (i : Nat) (old_wl new_wl : LiteralTpl)
    (wl' : WatchedLiterals) (cnf : Cnf)
    (hr : wl.replace_watched_literal i old_wl new_wl = some wl')
    (h1 : I1 wl cnf)
    (hnew : ∃ cls : Clause, cnf.clauses[i]? = some cls ∧ new_wl ∈ cls.literals) :
    I1 wl' cnf := by
  obtain ⟨w1, w2, hw, hcase⟩ := replace_destruct wl i old_wl new_wl wl' hr
  have hi : i < wl.watched_literals.length := by
    by_contra hcon
    rw [List.getElem?_eq_none (Nat.le_of_not_lt hcon)] at hw
    exact Option.noConfusion hw
  obtain ⟨cls, hcls, hnewmem⟩ := hnew
  have horig := h1 i w1 w2 hw
  intro j q1 q2 hj
  rcases hcase with ⟨-, hl⟩ | ⟨-, -, hl⟩ <;> rw [hl] at hj
  · by_cases hji : j = i
    · subst hji
      rw [List.getElem?_set_self hi] at hj
      rw [Option.some.injEq, Option.some.injEq, Prod.mk.injEq] at hj
      obtain ⟨cls', hcls', _, hw2⟩ := horig
      rw [hcls] at hcls'
      cases hcls'
      refine ⟨cls, hcls, ?_, ?_⟩
      · rw [← hj.1]
        exact hnewmem
      · rw [← hj.2]
        exact hw2
    · rw [List.getElem?_set_ne (fun hc => hji hc.symm)] at hj
      exact h1 j q1 q2 hj
  · by_cases hji : j = i
    · subst hji
      rw [List.getElem?_set_self hi] at hj
      rw [Option.some.injEq, Option.some.injEq, Prod.mk.injEq] at hj
      obtain ⟨cls', hcls', hw1, _⟩ := horig
      rw [hcls] at hcls'
      cases hcls'
      refine ⟨cls, hcls, ?_, ?_⟩
      · rw [← hj.1]
        exact hw1
      · rw [← hj.2]
        exact hnewmem
    · rw [List.getElem?_set_ne (fun hc => hji hc.symm)] at hj
      exact h1 j q1 q2 hj

/-! ## Helper lemmas: the update loop -/

theorem processClauses_nil (cnf : Cnf) (a : Assignment) (wlit nlit : LiteralTpl)
    (wl : WatchedLiterals) (props : List LiteralTpl) :
    WatchedLiterals.processClauses cnf a wlit nlit [] wl props
      = some (wl, .satisfiable props) := rfl

theorem processClauses_cons (cnf : Cnf) (a : Assignment) (wlit nlit : LiteralTpl)
    (i : Nat) (rest : List Nat) (wl : WatchedLiterals) (props : List LiteralTpl) :
    WatchedLiterals.processClauses cnf a wlit nlit (i :: rest) wl props =
      match cnf.clauses[i]? with
      | none => none
      | some clause =>
        match wl.check_clause_after_update i clause a nlit with
        | none => none
        | some (.keepLiteral, emitted) =>
          WatchedLiterals.processClauses cnf a wlit nlit rest wl (props ++ emitted)
        | some (.swapTo new_wl, emitted) =>
          match wl.replace_watched_literal i wlit new_wl with
          | none => none
          | some wl2 =>
            WatchedLiterals.processClauses cnf a wlit nlit rest wl2 (props ++ emitted)
        | some (.unsatisfiableClause, _) => some (wl, .unsatisfiable) := rfl

theorem processClauses_preserves_I2 (cnf : Cnf) (a : Assignment) (wlit nlit : LiteralTpl) :
    ∀ (l : List Nat) (wl : WatchedLiterals) (props : List LiteralTpl)
      (wl' : WatchedLiterals) (r : UpdateResult),
      WatchedLiterals.processClauses cnf a wlit nlit l wl props = some (wl', r) →
      I2 wl → I2 wl'
  | [], wl, props, wl', r => by
    intro h h2
    rw [processClauses_nil, Option.some.injEq, Prod.mk.injEq] at h
    rw [← h.1]
    exact h2
  | i :: rest, wl, props, wl', r => by
    intro h h2
    rw [processClauses_cons] at h
    rcases hcls : cnf.clauses[i]? with _ | cls
    · simp only [hcls] at h
      exact Option.noConfusion h
    simp only [hcls] at h
    rcases hchk : wl.check_clause_after_update i cls a nlit with _ | ⟨res, emitted⟩
    · simp only [hchk] at h
      exact Option.noConfusion h
    simp only [hchk] at h
    rcases res with _ | nw | _
    · exact processClauses_preserves_I2 cnf a wlit nlit rest wl (props ++ emitted) wl' r h h2
    · rcases hrep : wl.replace_watched_literal i wlit nw with _ | wl2
      · simp only [hrep] at h
        exact Option.noConfusion h
      simp only [hrep] at h
      exact processClauses_preserves_I2 cnf a wlit nlit rest wl2 (props ++ emitted) wl' r h
        (replace_preserves_I2 wl i wlit nw wl2 hrep h2)
    · rw [Option.some.injEq, Prod.mk.injEq] at h
      rw [← h.1]
      exact h2

theorem processClauses_preserves_len (cnf : Cnf) (a : Assignment) (wlit nlit : LiteralTpl) :
    ∀ (l : List Nat) (wl : WatchedLiterals) (props : List LiteralTpl)
      (wl' : WatchedLiterals) (r : UpdateResult),
      WatchedLiterals.processClauses cnf a wlit nlit l wl props = some (wl', r) →
      wl'.watched_literals.length = wl.watched_literals.length
  | [], wl, props, wl', r => by
    intro h
    rw [processClauses_nil, Option.some.injEq, Prod.mk.injEq] at h
    rw [← h.1]
  | i :: rest, wl, props, wl', r => by
    intro h
    rw [processClauses_cons] at h
    rcases hcls : cnf.clauses[i]? with _ | cls
    · simp only [hcls] at h
      exact Option.noConfusion h
    simp only [hcls] at h
    rcases hchk : wl.check_clause_after_update i cls a nlit with _ | ⟨res, emitted⟩
    · simp only [hchk] at h
      exact Option.noConfusion h
    simp only [hchk] at h
    rcases res with _ | nw | _
    · exact processClauses_preserves_len cnf a wlit nlit rest wl (props ++ emitted) wl' r h
    · rcases hrep : wl.replace_watched_literal i wlit nw with _ | wl2
      · simp only [hrep] at h
        exact Option.noConfusion h
      simp only [hrep] at h
      rw [processClauses_preserves_len cnf a wlit nlit rest wl2 (props ++ emitted) wl' r h]
      exact replace_length wl i wlit nw wl2 hrep
    · rw [Option.some.injEq, Prod.mk.injEq] at h
      rw [← h.1]

theorem processClauses_preserves_I1 (cnf : Cnf) (a : Assignment) (wlit nlit : LiteralTpl) :
    ∀ (l : List Nat) (wl : WatchedLiterals) (props : List LiteralTpl)
      (wl' : WatchedLiterals) (r : UpdateResult),
      WatchedLiterals.processClauses cnf a wlit nlit l wl props = some (wl', r) →
      I1 wl cnf → I1 wl' cnf
  | [], wl, props, wl', r => by
    intro h h1
    rw [processClauses_nil, Option.some.injEq, Prod.mk.injEq] at h
    rw [← h.1]
    exact h1
  | i :: rest, wl, props, wl', r => by
    intro h h1
    rw [processClauses_cons] at h
    rcases hcls : cnf.clauses[i]? with _ | cls
    · simp only [hcls] at h
      exact Option.noConfusion h
    simp only [hcls] at h
    rcases hchk : wl.check_clause_after_update i cls a nlit with _ | ⟨res, emitted⟩
    · simp only [hchk] at h
      exact Option.noConfusion h
    simp only [hchk] at h
    rcases res with _ | nw | _
    · exact processClauses_preserves_I1 cnf a wlit nlit rest wl (props ++ emitted) wl' r h h1
    · rcases hrep : wl.replace_watched_literal i wlit nw with _ | wl2
      · simp only [hrep] at h
        exact Option.noConfusion h
      simp only [hrep] at h
      exact processClauses_preserves_I1 cnf a wlit nlit rest wl2 (props ++ emitted) wl' r h
        (replace_preserves_I1 wl i wlit nw wl2 cnf hrep h1
          ⟨cls, hcls, check_clause_swapTo_mem wl i cls a nlit nw emitted hchk⟩)
    · rw [Option.some.injEq, Prod.mk.injEq] at h
      rw [← h.1]
      exact h1

theorem processClauses_props (cnf : Cnf) (a : Assignment) (wlit nlit : LiteralTpl) :
    ∀ (l : List Nat) (wl : WatchedLiterals) (props : List LiteralTpl)
      (wl' : WatchedLiterals) (props' : List LiteralTpl),
      WatchedLiterals.processClauses cnf a wlit nlit l wl props
        = some (wl', .satisfiable props') →
      (∀ p ∈ props, (∃ cls ∈ cnf.clauses, p ∈ cls.literals) ∧ a.get p.1 = none) →
      ∀ p ∈ props', (∃ cls ∈ cnf.clauses, p ∈ cls.literals) ∧ a.get p.1 = none
  | [], wl, props, wl', props' => by
    intro h hpre
    rw [processClauses_nil, Option.some.injEq, Prod.mk.injEq,
      UpdateResult.satisfiable.injEq] at h
    rw [← h.2]
    exact hpre
  | i :: rest, wl, props, wl', props' => by
    intro h hpre
    rw [processClauses_cons] at h
    rcases hcls : cnf.clauses[i]? with _ | cls
    · simp only [hcls] at h
      exact Option.noConfusion h
    simp only [hcls] at h
    rcases hchk : wl.check_clause_after_update i cls a nlit with _ | ⟨res, emitted⟩
    · simp only [hchk] at h
      exact Option.noConfusion h
    simp only [hchk] at h
    have hext : ∀ p ∈ props ++ emitted,
        (∃ cls ∈ cnf.clauses, p ∈ cls.literals) ∧ a.get p.1 = none := by
      intro p hp
      rcases List.mem_append.mp hp with hp | hp
      · exact hpre p hp
      · have := check_clause_emitted wl i cls a nlit res emitted hchk p hp
        refine ⟨⟨cls, List.getElem?_mem hcls, this.1⟩, ?_⟩
        exact (Assignment.get_lit_eq_none_iff a p).mp this.2
    rcases res with _ | nw | _
    · exact processClauses_props cnf a wlit nlit rest wl (props ++ emitted) wl' props' h hext
    · rcases hrep : wl.replace_watched_literal i wlit nw with _ | wl2
      · simp only [hrep] at h
        exact Option.noConfusion h
      simp only [hrep] at h
      exact processClauses_props cnf a wlit nlit rest wl2 (props ++ emitted) wl' props' h hext
    · rw [Option.some.injEq, Prod.mk.injEq] at h
      exact absurd h.2 (by simp)

/-! ## Helper lemmas: decidable invariant checks and counting bounds -/

theorem pairCount_eq_zero_of_ge (wl : WatchedLiterals) (lit : LiteralTpl) (i : Nat)
    (h : wl.watched_literals.length ≤ i) : pairCount wl lit i = 0 := by
  simp only [pairCount, pairCountL, List.getElem?_eq_none h]

theorem mem_pairLits_of_pairCount_pos (wl : WatchedLiterals) (lit : LiteralTpl) (i : Nat)
    (h : 0 < pairCount wl lit i) : lit ∈ pairLits wl := by
  rcases hw : wl.watched_literals[i]? with _ | (_ | ⟨w0, w1⟩) <;>
    simp only [pairCount, pairCountL, hw] at h
  · exact absurd h (by simp)
  · exact absurd h (by simp)
  · have hmem : some (w0, w1) ∈ wl.watched_literals := List.getElem?_mem hw
    unfold pairLits
    rw [List.mem_flatMap]
    refine ⟨some (w0, w1), hmem, ?_⟩
    by_cases h0 : w0 = lit
    · rw [h0]
      simp
    by_cases h1 : w1 = lit
    · rw [h1]
      simp
    · rw [if_neg h0, if_neg h1] at h
      exact absurd h (by simp)

theorem pairCount_le_two (wl : WatchedLiterals) (lit : LiteralTpl) (i : Nat) :
    pairCount wl lit i ≤ 2 := by
  rcases hw : wl.watched_literals[i]? with _ | (_ | ⟨w0, w1⟩) <;>
    simp only [pairCount, pairCountL, hw]
  · exact Nat.zero_le 2
  · exact Nat.zero_le 2
  · split <;> split <;> omega

theorem i2CheckAt_count (wl : WatchedLiterals) (lit : LiteralTpl)
    (h : i2CheckAt wl lit = true) (i : Nat) :
    (accessList wl lit).count i = pairCount wl lit i := by
  unfold i2CheckAt at h
  rw [List.all_eq_true] at h
  by_cases hmem : i ∈ accessList wl lit ++ List.range wl.watched_literals.length
  · simpa using h i hmem
  · rw [List.mem_append] at hmem
    push_neg at hmem
    have h1 : (accessList wl lit).count i = 0 := List.count_eq_zero.mpr hmem.1
    have h2 : pairCount wl lit i = 0 := by
      apply pairCount_eq_zero_of_ge
      by_contra hlt
      exact hmem.2 (List.mem_range.mpr (Nat.lt_of_not_le hlt))
    rw [h1, h2]

theorem i2Check_iff_I2 (wl : WatchedLiterals) : i2Check wl = true ↔ I2 wl := by
  constructor
  · intro h lit i
    rw [i2Check, List.all_eq_true] at h
    by_cases hmem : lit ∈ accessKeys wl ++ pairLits wl
    · exact i2CheckAt_count wl lit (h lit hmem) i
    · rw [List.mem_append] at hmem
      push_neg at hmem
      have h1 : accessList wl lit = [] := accessList_eq_nil_of_not_mem_keys wl lit hmem.1
      have h2 : pairCount wl lit i = 0 := by
        by_contra hpos
        exact hmem.2 (mem_pairLits_of_pairCount_pos wl lit i (Nat.pos_of_ne_zero hpos))
      rw [h1, h2]
      rfl
  · intro h
    rw [i2Check, List.all_eq_true]
    intro lit _
    rw [i2CheckAt, List.all_eq_true]
    intro i _
    exact beq_iff_eq.mpr (h lit i)

theorem i1Check_iff_I1 (wl : WatchedLiterals) (cnf : Cnf) :
    i1Check wl cnf = true ↔ I1 wl cnf := by
  constructor
  · intro h i w0 w1 hw
    rw [i1Check, List.all_eq_true] at h
    have hi : i < wl.watched_literals.length := by
      by_contra hcon
      rw [List.getElem?_eq_none (Nat.le_of_not_lt hcon)] at hw
      exact Option.noConfusion hw
    have hh := h i (List.mem_range.mpr hi)
    rcases hcls : cnf.clauses[i]? with _ | cls
    · simp only [hw, hcls] at hh
      exact absurd hh (by simp)
    · simp only [hw, hcls, Bool.and_eq_true] at hh
      refine ⟨cls, rfl, ?_, ?_⟩
      · simpa using hh.1
      · simpa using hh.2
  · intro h
    rw [i1Check, List.all_eq_true]
    intro i _
    rcases hw : wl.watched_literals[i]? with _ | (_ | ⟨w0, w1⟩)
    · simp only [hw]
    · simp only [hw]
    · obtain ⟨cls, hcls, hm0, hm1⟩ := h i w0 w1 hw
      simp only [hw, hcls, Bool.and_eq_true]
      constructor
      · simpa using hm0
      · simpa using hm1

theorem length_le_of_count_le (c : Nat) :
    ∀ (n : Nat) (L : List Nat), (∀ i ∈ L, i < n) → (∀ i, L.count i ≤ c) →
      L.length ≤ c * n
  | 0, L => by
    intro hlt _
    rcases L with _ | ⟨x, rest⟩
    · simp
    · exact absurd (hlt x (List.mem_cons_self ..)) (by omega)
  | n + 1, L => by
    intro hlt hcount
    have hsplit : L.length
        = L.countP (fun i => i == n) + L.countP (fun i => !(i == n)) := by
      rw [List.length_eq_countP_add_countP (p := fun i => i == n)]
      congr 1
      apply List.countP_congr
      intro x _
      simp
    have h1 : L.countP (fun i => i == n) ≤ c := by
      rw [← List.count_eq_countP]
      exact hcount n
    have hrec : (L.filter (fun i => !(i == n))).length ≤ c * n := by
      apply length_le_of_count_le c n
      · intro i hi
        obtain ⟨hiL, hne⟩ := List.mem_filter.mp hi
        have hlt' := hlt i hiL
        have : ¬i = n := by simpa using hne
        omega
      · intro i
        exact le_trans ((List.filter_sublist _).count_le i) (hcount i)
    have h2 : L.countP (fun i => !(i == n)) = (L.filter (fun i => !(i == n))).length :=
      List.countP_eq_length_filter (fun i => !(i == n)) L
    have hmul : c * (n + 1) = c * n + c := by ring
    omega

theorem accessList_length_le (wl : WatchedLiterals) (lit : LiteralTpl) (h2 : I2 wl) :
    (accessList wl lit).length ≤ 2 * wl.watched_literals.length := by
  apply length_le_of_count_le 2 wl.watched_literals.length
  · intro i hi
    by_contra hge
    have hc := h2 lit i
    rw [pairCount_eq_zero_of_ge wl lit i (Nat.le_of_not_lt hge)] at hc
    have hpos : 0 < (accessList wl lit).count i := List.count_pos_iff.mpr hi
    omega
  · intro i
    rw [h2 lit i]
    exact pairCount_le_two wl lit i

theorem filter_length_mono (p q : Var → Bool) (l : List Var)
    (himp : ∀ x, q x = true → p x = true) :
    (l.filter q).length ≤ (l.filter p).length := by
  rw [← List.countP_eq_length_filter, ← List.countP_eq_length_filter]
  exact List.countP_mono_left (fun a _ hq => himp a hq)

theorem filter_length_lt (p q : Var → Bool) (himp : ∀ x, q x = true → p x = true) :
    ∀ (l : List Var) (x : Var), x ∈ l → p x = true → q x = false →
      (l.filter q).length < (l.filter p).length
  | [], x => by
    intro hx
    exact absurd hx (by simp)
  | y :: rest, x => by
    intro hx hp hq
    rcases List.mem_cons.mp hx with hxy | hx
    · subst hxy
      rw [List.filter_cons_of_pos hp, List.filter_cons_of_neg (by simp [hq])]
      have := filter_length_mono p q rest himp
      rw [List.length_cons]
      omega
    · have hih := filter_length_lt p q himp rest x hx hp hq
      by_cases hpy : p y = true
      · rw [List.filter_cons_of_pos hpy]
        by_cases hqy : q y = true
        · rw [List.filter_cons_of_pos hqy]
          rw [List.length_cons, List.length_cons]
          omega
        · rw [List.filter_cons_of_neg hqy]
          rw [List.length_cons]
          omega
      · have hqy : ¬q y = true := by
          intro hcon
          exact hpy (himp y hcon)
        rw [List.filter_cons_of_neg hpy, List.filter_cons_of_neg hqy]
        exact hih

theorem unassignedCount_applyProps_le (U : List Var) (a : Assignment)
    (props : List LiteralTpl) :
    unassignedCount U (applyProps a props) ≤ unassignedCount U a := by
  apply filter_length_mono
  intro v hv
  rw [Option.isNone_iff_eq_none] at hv ⊢
  cases hget : a.get v with
  | none => rfl
  | some b =>
    have hsome : ((applyProps a props).get v).isSome = true :=
      isSome_get_applyProps a props v (by rw [hget]; rfl)
    rw [hv] at hsome
    exact absurd hsome (by simp)

theorem unassignedCount_applyProps_lt (U : List Var) (a : Assignment)
    (props : List LiteralTpl) (p : LiteralTpl) (hp : p ∈ props)
    (hU : p.1 ∈ U) (hnone : a.get p.1 = none) :
    unassignedCount U (applyProps a props) < unassignedCount U a := by
  apply filter_length_lt _ _ ?himp U p.1 hU (by rw [hnone]; rfl) ?hq
  case himp =>
    intro v hv
    rw [Option.isNone_iff_eq_none] at hv ⊢
    cases hget : a.get v with
    | none => rfl
    | some b =>
      have hsome : ((applyProps a props).get v).isSome = true :=
        isSome_get_applyProps a props v (by rw [hget]; rfl)
      rw [hv] at hsome
      exact absurd hsome (by simp)
  case hq =>
    have hsome := isSome_get_applyProps_of_mem a props p hp
    rcases hres : (applyProps a props).get p.1 with _ | b
    · rw [hres] at hsome
      exact absurd hsome (by simp)
    · rfl

theorem mem_varList_of_mem_literals (cnf : Cnf) (cls : Clause) (p : LiteralTpl)
    (hcls : cls ∈ cnf.clauses) (hp : p ∈ cls.literals) : p.1 ∈ cnf.varList := by
  unfold Cnf.varList
  rw [List.mem_flatMap]
  refine ⟨cls, hcls, ?_⟩
  unfold Clause.literals at hp
  rw [List.mem_append] at hp ⊢
  rcases hp with hp | hp
  · left
    obtain ⟨v, hv, rfl⟩ := List.mem_map.mp hp
    exact hv
  · right
    obtain ⟨v, hv, rfl⟩ := List.mem_map.mp hp
    exact hv

/-! ## Helper lemmas: update and the propagation loop -/

theorem check_clause_emitted_length (wl : WatchedLiterals) (i : Nat) (cls : Clause)
    (a : Assignment) (nl : LiteralTpl) (res : CheckClauseAfterUpdateResult)
    (emitted : List LiteralTpl)
    (h : wl.check_clause_after_update i cls a nl = some (res, emitted)) :
    emitted.length ≤ 1 := by
  obtain ⟨w1, w2, other_wl, _, _, hcases⟩ := check_clause_destruct wl i cls a nl res emitted h
  rcases hcases with ⟨_, _, he⟩ | ⟨p, _, _, he⟩ | ⟨p, _, _, he⟩ | ⟨_, _, he⟩
    | ⟨p, _, _, he⟩ | ⟨_, _, he⟩ <;> subst he <;> simp

theorem processClauses_props_length (cnf : Cnf) (a : Assignment) (wlit nlit : LiteralTpl) :
    ∀ (l : List Nat) (wl : WatchedLiterals) (props : List LiteralTpl)
      (wl' : WatchedLiterals) (props' : List LiteralTpl),
      WatchedLiterals.processClauses cnf a wlit nlit l wl props
        = some (wl', .satisfiable props') →
      props'.length ≤ props.length + l.length
  | [], wl, props, wl', props' => by
    intro h
    rw [processClauses_nil, Option.some.injEq, Prod.mk.injEq,
      UpdateResult.satisfiable.injEq] at h
    rw [← h.2]
    simp
  | i :: rest, wl, props, wl', props' => by
    intro h
    rw [processClauses_cons] at h
    rcases hcls : cnf.clauses[i]? with _ | cls
    · simp only [hcls] at h
      exact Option.noConfusion h
    simp only [hcls] at h
    rcases hchk : wl.check_clause_after_update i cls a nlit with _ | ⟨res, emitted⟩
    · simp only [hchk] at h
      exact Option.noConfusion h
    simp only [hchk] at h
    have hem := check_clause_emitted_length wl i cls a nlit res emitted hchk
    rcases res with _ | nw | _
    · have hih := processClauses_props_length cnf a wlit nlit rest wl (props ++ emitted)
        wl' props' h
      rw [List.length_append] at hih
      rw [List.length_cons]
      omega
    · rcases hrep : wl.replace_watched_literal i wlit nw with _ | wl2
      · simp only [hrep] at h
        exact Option.noConfusion h
      simp only [hrep] at h
      have hih := processClauses_props_length cnf a wlit nlit rest wl2 (props ++ emitted)
        wl' props' h
      rw [List.length_append] at hih
      rw [List.length_cons]
      omega
    · rw [Option.some.injEq, Prod.mk.injEq] at h
      exact absurd h.2 (by simp)

theorem processClauses_unsat_iff (cnf : Cnf) (a : Assignment) (wlit nlit : LiteralTpl) :
    ∀ (l : List Nat) (wl : WatchedLiterals) (props : List LiteralTpl)
      (wl' : WatchedLiterals) (r : UpdateResult),
      WatchedLiterals.processClauses cnf a wlit nlit l wl props = some (wl', r) →
      I1 wl cnf →
      (r = .unsatisfiable ↔ ∃ i ∈ l, ∃ cls : Clause,
        cnf.clauses[i]? = some cls ∧ clauseAllFalse cls a = true)
  | [], wl, props, wl', r => by
    intro h _
    rw [processClauses_nil, Option.some.injEq, Prod.mk.injEq] at h
    constructor
    · intro hr
      rw [← h.2] at hr
      exact absurd hr (by simp)
    · rintro ⟨i, hi, -⟩
      exact absurd hi (by simp)
  | i :: rest, wl, props, wl', r => by
    intro h h1
    rw [processClauses_cons] at h
    rcases hcls : cnf.clauses[i]? with _ | cls
    · simp only [hcls] at h
      exact Option.noConfusion h
    simp only [hcls] at h
    rcases hchk : wl.check_clause_after_update i cls a nlit with _ | ⟨res, emitted⟩
    · simp only [hchk] at h
      exact Option.noConfusion h
    simp only [hchk] at h
    have hmem : ∀ u1 u2 : LiteralTpl, wl.watched_literals[i]? = some (some (u1, u2)) →
        u1 ∈ cls.literals ∧ u2 ∈ cls.literals := by
      intro u1 u2 hu
      obtain ⟨cls', hcls', hm⟩ := h1 i u1 u2 hu
      rw [hcls] at hcls'
      injection hcls' with hcc
      rw [hcc]
      exact hm
    rcases res with _ | nw | _
    · have hih := processClauses_unsat_iff cnf a wlit nlit rest wl (props ++ emitted)
        wl' r h h1
      rw [hih]
      constructor
      · rintro ⟨i', hi', hex⟩
        exact ⟨i', List.mem_cons_of_mem _ hi', hex⟩
      · rintro ⟨i', hi', cls', hcls', hall⟩
        rcases List.mem_cons.mp hi' with hrfl | hi'
        · rw [hrfl, hcls] at hcls'
          injection hcls' with hcc
          rw [← hcc] at hall
          have hcon := check_clause_allFalse_unsat wl i cls a nlit .keepLiteral emitted
            hall hmem hchk
          exact absurd hcon (by simp)
        · exact ⟨i', hi', cls', hcls', hall⟩
    · rcases hrep : wl.replace_watched_literal i wlit nw with _ | wl2
      · simp only [hrep] at h
        exact Option.noConfusion h
      simp only [hrep] at h
      have h1' : I1 wl2 cnf := replace_preserves_I1 wl i wlit nw wl2 cnf hrep h1
        ⟨cls, hcls, check_clause_swapTo_mem wl i cls a nlit nw emitted hchk⟩
      have hih := processClauses_unsat_iff cnf a wlit nlit rest wl2 (props ++ emitted)
        wl' r h h1'
      rw [hih]
      constructor
      · rintro ⟨i', hi', hex⟩
        exact ⟨i', List.mem_cons_of_mem _ hi', hex⟩
      · rintro ⟨i', hi', cls', hcls', hall⟩
        rcases List.mem_cons.mp hi' with hrfl | hi'
        · rw [hrfl, hcls] at hcls'
          injection hcls' with hcc
          rw [← hcc] at hall
          have hcon := check_clause_allFalse_unsat wl i cls a nlit (.swapTo nw) emitted
            hall hmem hchk
          exact absurd hcon (by simp)
        · exact ⟨i', hi', cls', hcls', hall⟩
    · rw [Option.some.injEq, Prod.mk.injEq] at h
      constructor
      · intro _
        exact ⟨i, List.mem_cons_self .., cls, hcls,
          check_clause_unsat_allFalse wl i cls a nlit emitted hchk⟩
      · intro _
        exact h.2.symm

theorem update_destruct (wl : WatchedLiterals) (cnf : Cnf) (a : Assignment)
    (v : Var) (val : Bool) (wl' : WatchedLiterals) (r : UpdateResult)
    (h : wl.update cnf a (v, val) = some (wl', r)) :
    (a.get v).isSome = true ∧
      ((∃ cv, assocGet wl.access_map (v, !val) = some cv ∧
          WatchedLiterals.processClauses cnf a (v, !val) (v, val) cv wl []
            = some (wl', r)) ∨
        (assocGet wl.access_map (v, !val) = none ∧ wl' = wl ∧ r = .satisfiable [])) := by
  simp only [WatchedLiterals.update] at h
  by_cases hs : (a.get v).isSome = true
  · refine ⟨hs, ?_⟩
    rw [if_pos hs] at h
    rcases hg : assocGet wl.access_map (v, !val) with _ | cv
    · simp only [hg] at h
      rw [Option.some.injEq, Prod.mk.injEq] at h
      exact Or.inr ⟨rfl, h.1.symm, h.2.symm⟩
    · simp only [hg] at h
      exact Or.inl ⟨cv, rfl, h⟩
  · rw [if_neg hs] at h
    exact Option.noConfusion h

theorem update_preserves_I2 (wl : WatchedLiterals) (cnf : Cnf) (a : Assignment)
    (nl : LiteralTpl) (wl' : WatchedLiterals) (r : UpdateResult)
    (h : wl.update cnf a nl = some (wl', r)) (h2 : I2 wl) : I2 wl' := by
  obtain ⟨v, val⟩ := nl
  rcases (update_destruct wl cnf a v val wl' r h).2 with ⟨cv, _, hp⟩ | ⟨_, hwl, _⟩
  · exact processClauses_preserves_I2 cnf a (v, !val) (v, val) cv wl [] wl' r hp h2
  · rw [hwl]
    exact h2

theorem update_preserves_len (wl : WatchedLiterals) (cnf : Cnf) (a : Assignment)
    (nl : LiteralTpl) (wl' : WatchedLiterals) (r : UpdateResult)
    (h : wl.update cnf a nl = some (wl', r)) :
    wl'.watched_literals.length = wl.watched_literals.length := by
  obtain ⟨v, val⟩ := nl
  rcases (update_destruct wl cnf a v val wl' r h).2 with ⟨cv, _, hp⟩ | ⟨_, hwl, _⟩
  · exact processClauses_preserves_len cnf a (v, !val) (v, val) cv wl [] wl' r hp
  · rw [hwl]

theorem update_preserves_I1 (wl : WatchedLiterals) (cnf : Cnf) (a : Assignment)
    (nl : LiteralTpl) (wl' : WatchedLiterals) (r : UpdateResult)
    (h : wl.update cnf a nl = some (wl', r)) (h1 : I1 wl cnf) : I1 wl' cnf := by
  obtain ⟨v, val⟩ := nl
  rcases (update_destruct wl cnf a v val wl' r h).2 with ⟨cv, _, hp⟩ | ⟨_, hwl, _⟩
  · exact processClauses_preserves_I1 cnf a (v, !val) (v, val) cv wl [] wl' r hp h1
  · rw [hwl]
    exact h1

theorem update_props (wl : WatchedLiterals) (cnf : Cnf) (a : Assignment)
    (nl : LiteralTpl) (wl' : WatchedLiterals) (props : List LiteralTpl)
    (h : wl.update cnf a nl = some (wl', .satisfiable props)) :
    ∀ p ∈ props, (∃ cls ∈ cnf.clauses, p ∈ cls.literals) ∧ a.get p.1 = none := by
  obtain ⟨v, val⟩ := nl
  rcases (update_destruct wl cnf a v val wl' (.satisfiable props) h).2 with
    ⟨cv, _, hp⟩ | ⟨_, _, hr⟩
  · apply processClauses_props cnf a (v, !val) (v, val) cv wl [] wl' props hp
    intro p hp'
    exact absurd hp' (by simp)
  · rw [UpdateResult.satisfiable.injEq] at hr
    rw [hr]
    intro p hp'
    exact absurd hp' (by simp)

theorem update_props_length (wl : WatchedLiterals) (cnf : Cnf) (a : Assignment)
    (nl : LiteralTpl) (wl' : WatchedLiterals) (props : List LiteralTpl)
    (h : wl.update cnf a nl = some (wl', .satisfiable props)) (h2 : I2 wl) :
    props.length ≤ 2 * wl.watched_literals.length := by
  obtain ⟨v, val⟩ := nl
  rcases (update_destruct wl cnf a v val wl' (.satisfiable props) h).2 with
    ⟨cv, hg, hp⟩ | ⟨_, _, hr⟩
  · have hlen := processClauses_props_length cnf a (v, !val) (v, val) cv wl [] wl' props hp
    have hcv : accessList wl (v, !val) = cv := by
      unfold accessList
      rw [hg]
      rfl
    have hacc : cv.length ≤ 2 * wl.watched_literals.length := by
      rw [← hcv]
      exact accessList_length_le wl (v, !val) h2
    simp only [List.length_nil] at hlen
    omega
  · rw [UpdateResult.satisfiable.injEq] at hr
    rw [hr]
    simp

theorem backtrack_cons (dl : DecisionLevel) (rest : List DecisionLevel) :
    backtrack (dl :: rest) =
      if dl.flipped then backtrack rest
      else
        match dl.assignment.get dl.changed_var with
        | none => none
        | some old_assignment =>
          some ({ dl with
              flipped := true,
              assignment := dl.assignment.change dl.changed_var (!old_assignment) } :: rest,
            .continueWith (dl.changed_var, !old_assignment)) := rfl

theorem propagateLoop_zero (cnf : Cnf) (wl : WatchedLiterals) (a : Assignment)
    (queue : List LiteralTpl) (steps : Nat) :
    propagateLoop cnf 0 wl a queue steps = .outOfFuel := rfl

theorem propagateLoop_nil (cnf : Cnf) (fuel : Nat) (wl : WatchedLiterals)
    (a : Assignment) (steps : Nat) :
    propagateLoop cnf (fuel + 1) wl a [] steps = .assignmentDone wl a steps := rfl

theorem propagateLoop_cons (cnf : Cnf) (fuel : Nat) (wl : WatchedLiterals)
    (a : Assignment) (prop : LiteralTpl) (rest : List LiteralTpl) (steps : Nat) :
    propagateLoop cnf (fuel + 1) wl a (prop :: rest) steps =
      match wl.update cnf a prop with
      | none => .panicked
      | some (wl', .unsatisfiable) => .unsat wl' a steps
      | some (wl', .satisfiable props) =>
        propagateLoop cnf fuel wl' (applyProps a props) (rest ++ props)
          (steps + props.length) := rfl

theorem propagateLoop_terminates (cnf : Cnf) (U : List Var)
    (hU : ∀ v ∈ cnf.varList, v ∈ U) :
    ∀ (fuel : Nat) (u : Nat) (wl : WatchedLiterals) (a : Assignment)
      (queue : List LiteralTpl) (steps : Nat),
      I2 wl → wl.watched_literals.length = cnf.clauses.length →
      unassignedCount U a ≤ u →
      u * (2 * cnf.clauses.length + 2) + queue.length + 1 ≤ fuel →
      propagateLoop cnf fuel wl a queue steps ≠ .outOfFuel
  | 0 => by
    intro u wl a queue steps _ _ _ hfuel
    omega
  | fuel + 1 => by
    intro u wl a queue steps h2 hlen hu hfuel
    rcases queue with _ | ⟨prop, rest⟩
    · rw [propagateLoop_nil]
      intro hcon
      exact PropOutcome.noConfusion hcon
    rcases hup : wl.update cnf a prop with _ | ⟨wl2, r⟩
    · rw [propagateLoop_cons]
      simp only [hup]
      intro hcon
      exact PropOutcome.noConfusion hcon
    rcases r with _ | props
    · rw [propagateLoop_cons]
      simp only [hup]
      intro hcon
      exact PropOutcome.noConfusion hcon
    rw [propagateLoop_cons]
    simp only [hup]
    have h2' : I2 wl2 := update_preserves_I2 wl cnf a prop wl2 (.satisfiable props) hup h2
    have hlen' : wl2.watched_literals.length = cnf.clauses.length := by
      rw [update_preserves_len wl cnf a prop wl2 (.satisfiable props) hup]
      exact hlen
    rcases props with _ | ⟨p0, prest⟩
    · rw [List.append_nil]
      apply propagateLoop_terminates cnf U hU fuel u wl2 (applyProps a []) rest
        (steps + List.length []) h2' hlen'
      · exact le_trans (unassignedCount_applyProps_le U a []) hu
      · rw [List.length_cons] at hfuel
        omega
    · have hprops := update_props wl cnf a prop wl2 (p0 :: prest) hup
      obtain ⟨⟨cls, hclsmem, hlit⟩, hnone⟩ := hprops p0 (List.mem_cons_self ..)
      have hU0 : p0.1 ∈ U := hU p0.1 (mem_varList_of_mem_literals cnf cls p0 hclsmem hlit)
      have hdec : unassignedCount U (applyProps a (p0 :: prest)) < unassignedCount U a :=
        unassignedCount_applyProps_lt U a (p0 :: prest) p0 (List.mem_cons_self ..) hU0 hnone
      have hlenb : (p0 :: prest).length ≤ 2 * cnf.clauses.length := by
        have hb := update_props_length wl cnf a prop wl2 (p0 :: prest) hup h2
        rw [hlen] at hb
        exact hb
      have hpos : 1 ≤ unassignedCount U a := by
        have hmem : p0.1 ∈ U.filter (fun v => (a.get v).isNone) :=
          List.mem_filter.mpr ⟨hU0, by rw [hnone]; rfl⟩
        exact List.length_pos_of_mem hmem
      obtain ⟨u', rfl⟩ : ∃ u', u = u' + 1 := ⟨u - 1, by omega⟩
      apply propagateLoop_terminates cnf U hU fuel u' wl2 (applyProps a (p0 :: prest))
        (rest ++ p0 :: prest) (steps + (p0 :: prest).length) h2' hlen'
      · omega
      · rw [Nat.succ_mul] at hfuel
        rw [List.length_append]
        rw [List.length_cons] at hfuel
        generalize u' * (2 * cnf.clauses.length + 2) = M at hfuel ⊢
        omega

/-- C1: refuted — the solver is not complete.  On the satisfiable formula
`cnfC1` (the partial assignment 1 ↦ true, 2 ↦ false satisfies every clause)
`is_satisfiable` returns the verdict UNSAT after one evaluation: after the
conflict in the branch 1 ↦ false, `backtrack` flips the decision but keeps
the propagations 2 ↦ true, 3 ↦ true of the abandoned branch in the level's
assignment, so the model is never reached. -/
theorem c1_is_satisfiable_unsat_on_satisfiable_cnfC1 :
    is_satisfiable 64 64 cnfC1 = .result false 1 ∧
    cnfC1.is_satisfied modelC1 = true := by decide

/-- C2: refuted — invariant I4 does not survive `backtrack`.  Running the
main loop of `is_satisfiable` on `cnfC1` (whose initial assignment is empty),
five steps reach the state right after `backtrack` flipped the only decision
level: its decided variable is 1, now assigned true, but the level's
assignment still contains 2 ↦ true and 3 ↦ true — propagations of the
abandoned branch 1 ↦ false.  They are not propagations derived from the
flipped decision: every total assignment satisfying `cnfC1` with 1 ↦ true
assigns 2 ↦ false, so no sound propagation from (1, true) can yield
2 ↦ true. -/
theorem c2_i4_fails_after_backtrack_flip :
    get_assignment_from_single_clauses cnfC1 = some ⟨[]⟩ ∧
    ((stepN cnfC1 cnfC1.highest_var ⟨[]⟩ 64 5
        { dec_levels := [], wl := WatchedLiterals.new cnfC1, tries := 1,
          state := .checkCurrentLevel }).map
      (fun s => (s.state, s.dec_levels.map (fun dl =>
        (dl.changed_var, dl.flipped, dl.assignment.get 2, dl.assignment.get 3))))
      == some (.propagateAssignment (1, true), [(1, true, some true, some true)])) = true ∧
    (Assignment.mk []).get 2 = none ∧
    ([false, true].all (fun b2 => [false, true].all (fun b3 =>
      !(cnfC1.is_satisfied ⟨[(1, true), (2, b2), (3, b3)]⟩) || (b2 == false)))) = true := by
  decide

/-- C3: refuted — `find_replacement_literal` does not totally classify.  On
the clause (1 ∨ 2 ∨ 3) with the empty assignment and watched literal
(3, true) — which belongs to the clause, is not satisfied, and coexists with
three unassigned literals — the scan reaches two unassigned literals neither
of which is the watched one and runs into `unreachable!()` instead of
returning `MultipleUnassigned`. -/
theorem c3_find_replacement_literal_aborts :
    WatchedLiterals.find_replacement_literal clauseC3 ⟨[]⟩ (3, true) = none ∧
    ((3 : Var), true) ∈ clauseC3.literals ∧
    (Assignment.mk []).get_lit (3, true) ≠ some true ∧
    2 ≤ (clauseC3.literals.filter (fun l => ((Assignment.mk []).get_lit l).isNone)).length := by
  decide

/-- C4: counterexample — the verdict depends on the enumeration order of the
initial unit-clause assignment (`HashMap` iteration order in the source).
On `cnfC4` the two orders of the same two-entry initial assignment give a
SAT verdict after 3 evaluations versus a crash in `find_replacement_literal`
(the `unreachable!()` of the `MultipleUnassigned` search). -/
theorem c4_order_dependence_counterexample :
    (get_assignment_from_single_clauses cnfC4).map (·.entries) = some orderC4A ∧
    orderC4A.Perm orderC4B ∧
    is_satisfiableWithOrder 64 64 (fun _ => orderC4A) cnfC4 = .result true 3 ∧
    is_satisfiableWithOrder 64 64 (fun _ => orderC4B) cnfC4 = .panicked := by
  decide

/-- C6: counterexample — the number of propagation steps can exceed the
number of variables.  On three copies of the clause (¬1 ∨ 2), seeding BCP
with (2, false) under the assignment 2 ↦ false enqueues and applies the
propagation (1, false) three times (once per duplicate clause), i.e. 3
propagation steps over a 2-variable formula; the second and third of them
write to an already-assigned variable. -/
theorem c6_steps_exceed_vars_counterexample :
    propStepsOf (propagate_assignment 20 cnfC6 (WatchedLiterals.new cnfC6)
      (Assignment.new_with 2 false) (2, false)) = some 3 ∧
    numVars cnfC6 = 2 := by decide

/-- C7: counterexample — `update` can abort although a clause watching the
falsified sibling is all-false.  With `cnfC7`, assignment
1 ↦ F, 2 ↦ F, 5 ↦ F and newly assigned literal (1, false), the entry
snapshot for the sibling (1, true) is [0, 1]; clause 1 = (1 ∨ 5) has every
literal false, but processing clause 0 first hits the `unreachable!()` of
the replacement search, so `update` aborts instead of returning
`Unsatisfiable`. -/
theorem c7_update_aborts_before_conflict_counterexample :
    (WatchedLiterals.new cnfC7).update cnfC7 aC7 (1, false) = none ∧
    aC7.get_lit (1, false) = some true ∧
    accessList (WatchedLiterals.new cnfC7) (1, true) = [0, 1] ∧
    (cnfC7.clauses[1]?.map (fun cls => clauseAllFalse cls aC7)) = some true := by
  decide

/-- C9: refuted — a seed literal contradicting the assignment is not
detected.  With the assignment 1 ↦ false the literal (1, true) is falsified
(`get_lit` is `some false`), yet `update` accepts it and returns
`Satisfiable`: the entry assertion's guard `Some(val) if val == val` binds a
fresh `val` and so only checks that the variable is assigned at all. -/
theorem c9_update_accepts_contradictory_seed :
    (Assignment.new_with 1 false).get_lit (1, true) = some false ∧
    (WatchedLiterals.new cnfC9).update cnfC9 (Assignment.new_with 1 false) (1, true)
      = some (WatchedLiterals.new cnfC9, .satisfiable []) := by decide

/-- C5: invariant I2 — the mutual consistency of the access map and the
watched pairs — holds after every completed call to
`WatchedLiterals.update`, whether it returns `satisfiable` or
`unsatisfiable`, provided it held at entry. -/
theorem c5_update_i2 (wl : WatchedLiterals) (cnf : Cnf) (a : Assignment)
    (nl : LiteralTpl) (wl' : WatchedLiterals) (r : UpdateResult)
    (h : wl.update cnf a nl = some (wl', r)) (h2 : I2 wl) : I2 wl' :=
  update_preserves_I2 wl cnf a nl wl' r h h2

/-- Witness for C5: a concrete propagating update on `cnfC5w` whose result
still passes the decidable I2 check. -/
theorem c5_update_i2_witness : i2Check (WatchedLiterals.new cnfC5w) = true :=
  (i2Check_iff_I2 (WatchedLiterals.new cnfC5w)).mpr
    (c5_update_i2 (WatchedLiterals.new cnfC5w) cnfC5w aC5w (1, false)
      (WatchedLiterals.new cnfC5w) (.satisfiable [(2, true)]) rfl
      ((i2Check_iff_I2 (WatchedLiterals.new cnfC5w)).mp (by decide)))

/-- C10: every propagation emitted by a completed satisfiable
`WatchedLiterals.update` call is a literal of some clause of the formula and
its variable is unassigned under the assignment passed to that call. -/
theorem c10_update_props_unassigned (wl : WatchedLiterals) (cnf : Cnf) (a : Assignment)
    (nl : LiteralTpl) (wl' : WatchedLiterals) (props : List LiteralTpl)
    (h : wl.update cnf a nl = some (wl', .satisfiable props)) :
    ∀ p ∈ props, (∃ cls ∈ cnf.clauses, p ∈ cls.literals) ∧ a.get p.1 = none :=
  update_props wl cnf a nl wl' props h

/-- Witness for C10: the unit propagation (2, true) emitted on `cnfC10w` is
a literal of its clause with variable 2 unassigned. -/
theorem c10_update_props_unassigned_witness :
    (∃ cls ∈ cnfC10w.clauses, ((2, true) : LiteralTpl) ∈ cls.literals)
      ∧ aC10w.get 2 = none :=
  c10_update_props_unassigned (WatchedLiterals.new cnfC10w) cnfC10w aC10w (1, false)
    (WatchedLiterals.new cnfC10w) [(2, true)] rfl (2, true) (List.mem_singleton.mpr rfl)

/-- C7 (amended): when `WatchedLiterals.update` for the new assignment
(v, val) completes without aborting and every watched literal belongs to its
clause (I1), the result is `unsatisfiable` exactly when some clause watching
the falsified sibling literal (v, ¬val) at entry has every literal assigned
false under the given assignment. -/
theorem c7_update_unsat_iff (wl : WatchedLiterals) (cnf : Cnf) (a : Assignment)
    (v : Var) (val : Bool) (wl' : WatchedLiterals) (r : UpdateResult)
    (h : wl.update cnf a (v, val) = some (wl', r)) (h1 : I1 wl cnf) :
    (r = .unsatisfiable ↔ ∃ i ∈ accessList wl (v, !val), ∃ cls : Clause,
      cnf.clauses[i]? = some cls ∧ clauseAllFalse cls a = true) := by
  rcases (update_destruct wl cnf a v val wl' r h).2 with ⟨cv, hg, hp⟩ | ⟨hg, -, hr⟩
  · have hacc : accessList wl (v, !val) = cv := by
      unfold accessList
      rw [hg]
      rfl
    rw [hacc]
    exact processClauses_unsat_iff cnf a (v, !val) (v, val) cv wl [] wl' r hp h1
  · have hacc : accessList wl (v, !val) = [] := by
      unfold accessList
      rw [hg]
      rfl
    rw [hacc, hr]
    constructor
    · intro hcon
      exact absurd hcon (by simp)
    · rintro ⟨i, hi, -⟩
      exact absurd hi (by simp)

/-- Witness for C7: on `cnfC7w` under `aC7w` the update for (1, false)
reports `unsatisfiable`, and indeed a watching clause is all-false. -/
theorem c7_update_unsat_iff_witness :
    ∃ i ∈ accessList (WatchedLiterals.new cnfC7w) (1, !false), ∃ cls : Clause,
      cnfC7w.clauses[i]? = some cls ∧ clauseAllFalse cls aC7w = true :=
  (c7_update_unsat_iff (WatchedLiterals.new cnfC7w) cnfC7w aC7w 1 false
    (WatchedLiterals.new cnfC7w) .unsatisfiable rfl
    ((i1Check_iff_I1 (WatchedLiterals.new cnfC7w) cnfC7w).mp (by decide))).mp rfl

/-- C6 (amended): BCP always terminates, but the bound is not |vars|
propagation steps: with consistent watched pairs (I2) and one pair slot per
clause, `propagate_assignment` completes (never runs out) within
`propFuelBound` iterations, a bound quadratic in the size of the formula. -/
theorem c6_propagate_assignment_terminates (cnf : Cnf) (wl : WatchedLiterals)
    (a : Assignment) (l : LiteralTpl) (fuel : Nat) (h2 : I2 wl)
    (hlen : wl.watched_literals.length = cnf.clauses.length)
    (hfuel : propFuelBound cnf wl a ≤ fuel) :
    propagate_assignment fuel cnf wl a l ≠ .outOfFuel := by
  unfold propagate_assignment
  apply propagateLoop_terminates cnf (propUniverse cnf wl) ?hU fuel
    (unassignedCount (propUniverse cnf wl) a) wl a [l] 0 h2 hlen (Nat.le_refl _) ?hf
  case hU =>
    intro v hv
    unfold propUniverse
    exact List.mem_dedup.mpr (List.mem_append_left _ hv)
  case hf =>
    unfold propFuelBound at hfuel
    rw [List.length_cons, List.length_nil]
    generalize unassignedCount (propUniverse cnf wl) a * (2 * cnf.clauses.length + 2) = M
      at hfuel ⊢
    omega

/-- Witness for C6: the BCP run on `cnfC6w` seeded with (1, false) completes
within the computed fuel bound. -/
theorem c6_propagate_assignment_terminates_witness :
    propagate_assignment (propFuelBound cnfC6w (WatchedLiterals.new cnfC6w) aC6w)
      cnfC6w (WatchedLiterals.new cnfC6w) aC6w (1, false) ≠ .outOfFuel :=
  c6_propagate_assignment_terminates cnfC6w (WatchedLiterals.new cnfC6w) aC6w (1, false)
    (propFuelBound cnfC6w (WatchedLiterals.new cnfC6w) aC6w)
    ((i2Check_iff_I2 (WatchedLiterals.new cnfC6w)).mp (by decide)) (by decide)
    (Nat.le_refl _)

/-- C8: `backtrack` pops exactly the maximal run of flipped levels from the
top of the stack (the head of the list); if that empties the stack it
returns `unsatisfiableFormula`, and otherwise it marks the new top level
flipped, overwrites its decided variable with the negation of its current
value, returns `continueWith` of that literal, and leaves the levels below
unchanged (assuming each level's decided variable is assigned, which the
source `unwrap`s). -/
theorem c8_backtrack_spec :
    ∀ dls : List DecisionLevel,
      (∀ dl ∈ dls, (dl.assignment.get dl.changed_var).isSome = true) →
      (dls.dropWhile (·.flipped) = [] →
        backtrack dls = some ([], .unsatisfiableFormula)) ∧
      (∀ dl rest, dls.dropWhile (·.flipped) = dl :: rest →
        ∀ old, dl.assignment.get dl.changed_var = some old →
          backtrack dls = some
            ({ dl with
                flipped := true,
                assignment := dl.assignment.change dl.changed_var (!old) } :: rest,
              .continueWith (dl.changed_var, !old)))
  | [] => by
    intro _
    constructor
    · intro _
      rfl
    · intro dl rest hdrop
      rw [List.dropWhile_nil] at hdrop
      exact absurd hdrop (by simp)
  | d :: ds => by
    intro hdef
    by_cases hf : d.flipped = true
    · have hdrop : (d :: ds).dropWhile (·.flipped) = ds.dropWhile (·.flipped) :=
        List.dropWhile_cons_of_pos hf
      have hbt : backtrack (d :: ds) = backtrack ds := by
        rw [backtrack_cons, if_pos hf]
      have hih := c8_backtrack_spec ds (fun dl hdl => hdef dl (List.mem_cons_of_mem _ hdl))
      rw [hdrop, hbt]
      exact hih
    · have hdrop : (d :: ds).dropWhile (·.flipped) = d :: ds :=
        List.dropWhile_cons_of_neg hf
      constructor
      · intro hnil
        rw [hdrop] at hnil
        exact absurd hnil (by simp)
      · intro dl rest hdl old hold
        rw [hdrop] at hdl
        injection hdl with h1 h2
        subst h1
        subst h2
        rw [backtrack_cons, if_neg hf]
        simp only [hold]

/-- Witness for C8: backtracking `dlsC8` pops the flipped top level and
flips the level deciding variable 2 from true to false. -/
theorem c8_backtrack_spec_witness :
    backtrack dlsC8 = some
      ([⟨⟨[(2, false)]⟩, 2, 2, true⟩, ⟨⟨[(3, false)]⟩, 3, 3, false⟩],
        .continueWith (2, false)) :=
  (c8_backtrack_spec dlsC8 (by decide)).2 ⟨⟨[(2, true)]⟩, 2, 2, false⟩
    [⟨⟨[(3, false)]⟩, 3, 3, false⟩] rfl true rfl

/-- C4 (amended): the solver is deterministic once the iteration order of
the initial assignment is fixed: two seed orders that agree up to
permutation and hold at most one entry produce identical outcomes (the
order-sensitivity arises only from multi-entry `HashMap` iteration). -/
theorem c4_perm_singleton_order_independent (lf pf : Nat) (cnf : Cnf)
    (s1 s2 : Assignment → List LiteralTpl)
    (hperm : ∀ a, (s1 a).Perm (s2 a)) (hlen : ∀ a, (s1 a).length ≤ 1) :
    is_satisfiableWithOrder lf pf s1 cnf = is_satisfiableWithOrder lf pf s2 cnf := by
  have hs : s1 = s2 := by
    funext a
    have hp := hperm a
    have hl := hlen a
    rcases hs1 : s1 a with _ | ⟨x, rest⟩
    · rw [hs1] at hp
      exact (List.perm_nil.mp hp.symm).symm
    · rw [hs1] at hp hl
      rcases rest with _ | ⟨y, rest2⟩
      · exact List.singleton_perm.mp hp
      · rw [List.length_cons, List.length_cons] at hl
        omega
  rw [hs]

/-- Witness for C4: on `cnfC4w` the two permuted single-seed orders give
the same outcome. -/
theorem c4_perm_singleton_order_independent_witness :
    is_satisfiableWithOrder 16 64 seedsA cnfC4w
      = is_satisfiableWithOrder 16 64 seedsB cnfC4w :=
  c4_perm_singleton_order_independent 16 64 cnfC4w seedsA seedsB
    (fun a => (List.reverse_perm (a.entries.take 1)).symm)
    (fun a => List.length_take_le 1 a.entries)

end Satsolver
